import Mathlib

/-!
# straw-cli-go: the response capture buffer and the relay exchange

A shallow embedding of `lib.go` (package `strawcligo`).

Conventions of the embedding
* A Go `byte` is a `Fin 256`; a `[]byte` and a Go `string` are lists of bytes
  (a Go string is an arbitrary byte sequence, not necessarily valid UTF-8).
* A Go slice or map that may be `nil` is an `Option`: `none` is `nil`.
* A Go map `map[string][]string` is the list of its entries kept strictly
  increasing by key (bytewise order), so that two maps with the same entries
  are the same list.  The order of the list is NOT the iteration order of
  `range`, which Go leaves unspecified; `Fwd` takes that order as an argument.
* Two Go values that share memory (the header map of a buffer and of the sink
  it is replayed onto) are modelled by saying what is shared: see `Sharing`.
* The standard-library operations that `lib.go` calls (`bytes.Buffer`,
  `http.Header`, `textproto.CanonicalMIMEHeaderKey`, `encoding/json`,
  `encoding/base64`, `unicode/utf8`) are modelled after their documented
  behaviour, each next to the method of `lib.go` that calls it.
* Go's `int` is modelled by `Int`.  `errCount` starts at 0 and gains at most
  one per relay exchange, so no run reaches 2^63.
-/

namespace Straw

/-! ## Bytes and strings -/

abbrev Byte := Fin 256
abbrev ByteSlice := List Byte
abbrev GoString := List Byte
abbrev GoError := String

deriving instance DecidableEq for Except

/-- The bytes of an ASCII literal. -/
def ascii (s : String) : GoString := s.toList.map (fun c => Fin.ofNat c.toNat)

/-- Go's `<` on strings: bytewise lexicographic order. -/
def strLt : GoString → GoString → Bool
  | [], [] => false
  | [], _ :: _ => true
  | _ :: _, [] => false
  | a :: as, b :: bs =>
    if a.val < b.val then true else if b.val < a.val then false else strLt as bs

/-! ## `http.Header` -/

/-- A header value list `[]string`; `none` is the nil slice. -/
abbrev HeaderValues := Option (List GoString)

/-- The entries of a non-nil `http.Header`, strictly increasing by key. -/
abbrev HeaderMap := List (GoString × HeaderValues)

/-- An `http.Header`: `none` is the nil map. -/
abbrev HttpHeader := Option HeaderMap

/-- The representation invariant of a map: keys strictly increasing. -/
def HeaderMap.WF : HeaderMap → Bool
  | [] => true
  | [_] => true
  | a :: b :: rest => strLt a.1 b.1 && HeaderMap.WF (b :: rest)

/-- Map read `h[k]` with presence: `none` when `k` is not a key. -/
def HeaderMap.lookup : HeaderMap → GoString → Option HeaderValues
  | [], _ => none
  | (k', v) :: rest, k => if k = k' then some v else HeaderMap.lookup rest k

/-- Map read `h[k]`: the zero value (nil slice) when `k` is not a key. -/
def HeaderMap.index (h : HeaderMap) (k : GoString) : HeaderValues :=
  (h.lookup k).join

/-- Map write `h[k] = v`. -/
def HeaderMap.store : HeaderMap → GoString → HeaderValues → HeaderMap
  | [], k, v => [(k, v)]
  | (k', v') :: rest, k, v =>
    if k = k' then (k, v) :: rest
    else if strLt k k' then (k, v) :: (k', v') :: rest
    else (k', v') :: HeaderMap.store rest k v

/-- Map delete `delete(h, k)`. -/
def HeaderMap.delete : HeaderMap → GoString → HeaderMap
  | [], _ => []
  | (k', v) :: rest, k =>
    if k = k' then HeaderMap.delete rest k else (k', v) :: HeaderMap.delete rest k

/-- The table `isTokenTable` of `net/textproto`: the bytes allowed in a header
field name (RFC 7230 token characters). -/
def validHeaderFieldByte (c : Byte) : Bool :=
  (48 ≤ c.val && c.val ≤ 57) || (65 ≤ c.val && c.val ≤ 90) || (97 ≤ c.val && c.val ≤ 122) ||
  c.val = 33 || c.val = 35 || c.val = 36 || c.val = 37 || c.val = 38 || c.val = 39 ||
  c.val = 42 || c.val = 43 || c.val = 45 || c.val = 46 || c.val = 94 || c.val = 95 ||
  c.val = 96 || c.val = 124 || c.val = 126

/-- The loop of `canonicalMIMEHeaderKey`: upper-case the first letter and every
letter after a dash, lower-case the others. -/
def canonLoop : Bool → GoString → GoString
  | _, [] => []
  | upper, c :: rest =>
    let c' : Byte :=
      if upper && 97 ≤ c.val && c.val ≤ 122 then Fin.ofNat (c.val - 32)
      else if !upper && 65 ≤ c.val && c.val ≤ 90 then Fin.ofNat (c.val + 32)
      else c
    c' :: canonLoop (c'.val = 45) rest

/-- Go `textproto.CanonicalMIMEHeaderKey`: a key with a byte that is not a token
character is returned unchanged, any other key is canonicalised. -/
def CanonicalMIMEHeaderKey (s : GoString) : GoString :=
  if s.all validHeaderFieldByte then canonLoop true s else s

/-- Go `http.Header.Add`: `h[key] = append(h[key], value)` at the canonical key. -/
def HeaderMap.Add (h : HeaderMap) (key value : GoString) : HeaderMap :=
  let k := CanonicalMIMEHeaderKey key
  h.store k (some ((h.index k).getD [] ++ [value]))

/-- Go `http.Header.Set`: `h[key] = []string{value}` at the canonical key. -/
def HeaderMap.Set (h : HeaderMap) (key value : GoString) : HeaderMap :=
  h.store (CanonicalMIMEHeaderKey key) (some [value])

/-- Go `http.Header.Del`: `delete(h, key)` at the canonical key. -/
def HeaderMap.Del (h : HeaderMap) (key : GoString) : HeaderMap :=
  h.delete (CanonicalMIMEHeaderKey key)

/-- Go `http.Header.Values`: `h[key]` at the canonical key; nil on a nil map.  The
result is read as a list (a nil slice has no elements). -/
def HttpHeader.Values (h : HttpHeader) (key : GoString) : List GoString :=
  match h with
  | none => []
  | some m => (m.index (CanonicalMIMEHeaderKey key)).getD []

/-! ## `MemoryResponseWriter` -/

/-- Go `bytes.Buffer.Bytes` on a buffer that was only written to: the nil slice as
long as nothing was written, the contents afterwards. -/
def Buffer.Bytes (contents : ByteSlice) : Option ByteSlice :=
  if contents = [] then none else some contents

/-- The struct `MemoryResponseWriter`.  `buf` is the contents of the
`*bytes.Buffer` (non-nil: the field is unexported and set by
`NewMemoryResponseWriter`). -/
structure MemoryResponseWriter where
  buf : ByteSlice
  Data : Option ByteSlice
  Status : Int
  Headers : HttpHeader
deriving DecidableEq

/-- Go `Write`: `m.buf.Write(b)` appends `b` and returns `(len(b), nil)`. -/
def MemoryResponseWriter.Write (m : MemoryResponseWriter) (b : ByteSlice) :
    MemoryResponseWriter × Nat × Option GoError :=
  ({ m with buf := m.buf ++ b }, b.length, none)

/-- Go `WriteHeader`: `m.Status = statusCode`. -/
def MemoryResponseWriter.WriteHeader (m : MemoryResponseWriter) (statusCode : Int) :
    MemoryResponseWriter :=
  { m with Status := statusCode }

/-- Go `Header`: `return m.Headers`. -/
def MemoryResponseWriter.Header (m : MemoryResponseWriter) : HttpHeader :=
  m.Headers

/-- Go `Bytes`: `return m.buf.Bytes()`. -/
def MemoryResponseWriter.Bytes (m : MemoryResponseWriter) : Option ByteSlice :=
  Buffer.Bytes m.buf

/-- Go `Close`: default the status to `http.StatusOK`, then `m.Data = m.buf.Bytes()`. -/
def MemoryResponseWriter.Close (m : MemoryResponseWriter) : MemoryResponseWriter :=
  let m1 := if m.Status = 0 then { m with Status := 200 } else m
  { m1 with Data := Buffer.Bytes m1.buf }

/-- Go `NewMemoryResponseWriter`: an empty buffer and an empty, non-nil header map. -/
def NewMemoryResponseWriter : MemoryResponseWriter :=
  { buf := [], Data := none, Status := 0, Headers := some [] }

/-- A call that `lib.go` makes on an `http.ResponseWriter`: `Header().Add`
(in `handle` and in `Fwd`), `WriteHeader` and `Write` (in `Fwd`). -/
inductive SinkCall where
  | headerAdd (key value : GoString)
  | writeHeader (statusCode : Int)
  | write (b : ByteSlice)
deriving DecidableEq

/-- The call, received by a `MemoryResponseWriter`.  `Header().Add` on a nil map
is an assignment to an entry of a nil map, a runtime panic (`none`). -/
def MemoryResponseWriter.call (m : MemoryResponseWriter) : SinkCall → Option MemoryResponseWriter
  | .headerAdd k v =>
    match m.Header with
    | none => none
    | some h => some { m with Headers := some (h.Add k v) }
  | .writeHeader c => some (m.WriteHeader c)
  | .write b => some (m.Write b).1

/-- A sequence of `Write` calls: the final buffer and the list of the returned
`(n, err)` pairs. -/
def MemoryResponseWriter.writeAll (m : MemoryResponseWriter) :
    List ByteSlice → MemoryResponseWriter × List (Nat × Option GoError)
  | [] => (m, [])
  | b :: bs =>
    let r := m.Write b
    let rest := MemoryResponseWriter.writeAll r.1 bs
    (rest.1, (r.2.1, r.2.2) :: rest.2)

/-! ## `unicode/utf8` -/

/-- Go `utf8.RuneError`, U+FFFD. -/
def RuneError : Nat := 0xFFFD

/-- A UTF-8 continuation byte in the range `lo..hi`. -/
def inRange (lo hi : Nat) (b : Byte) : Bool := lo ≤ b.val && b.val ≤ hi

/-- Go `utf8.DecodeRune`: the first rune of `p` and its width in bytes; an invalid
or short encoding gives `(RuneError, 1)`, the empty input `(RuneError, 0)`.
Masks and shifts are written as `%` and `*`. -/
def decodeRune : List Byte → Nat × Nat
  | [] => (RuneError, 0)
  | p0 :: rest =>
    if p0.val < 0x80 then (p0.val, 1)
    else if p0.val < 0xC2 then (RuneError, 1)
    else if p0.val < 0xE0 then
      match rest with
      | b1 :: _ =>
        if inRange 0x80 0xBF b1 then (p0.val % 32 * 64 + b1.val % 64, 2) else (RuneError, 1)
      | _ => (RuneError, 1)
    else if p0.val < 0xF0 then
      match rest with
      | b1 :: b2 :: _ =>
        if inRange (if p0.val = 0xE0 then 0xA0 else 0x80) (if p0.val = 0xED then 0x9F else 0xBF) b1
            && inRange 0x80 0xBF b2 then
          (p0.val % 16 * 4096 + b1.val % 64 * 64 + b2.val % 64, 3)
        else (RuneError, 1)
      | _ => (RuneError, 1)
    else if p0.val < 0xF5 then
      match rest with
      | b1 :: b2 :: b3 :: _ =>
        if inRange (if p0.val = 0xF0 then 0x90 else 0x80) (if p0.val = 0xF4 then 0x8F else 0xBF) b1
            && inRange 0x80 0xBF b2 && inRange 0x80 0xBF b3 then
          (p0.val % 8 * 262144 + b1.val % 64 * 4096 + b2.val % 64 * 64 + b3.val % 64, 4)
        else (RuneError, 1)
      | _ => (RuneError, 1)
    else (RuneError, 1)

/-- Go `utf8.AppendRune`: the UTF-8 encoding of a rune; a surrogate or a value
above U+10FFFF is encoded as U+FFFD. -/
def encodeRune (r : Nat) : List Byte :=
  if r ≤ 0x7F then [Fin.ofNat r]
  else if r ≤ 0x7FF then [Fin.ofNat (0xC0 + r / 64), Fin.ofNat (0x80 + r % 64)]
  else
    let r3 := if r > 0x10FFFF || (0xD800 ≤ r && r ≤ 0xDFFF) then RuneError else r
    if r3 ≤ 0xFFFF then
      [Fin.ofNat (0xE0 + r3 / 4096), Fin.ofNat (0x80 + r3 / 64 % 64), Fin.ofNat (0x80 + r3 % 64)]
    else
      [Fin.ofNat (0xF0 + r3 / 262144), Fin.ofNat (0x80 + r3 / 4096 % 64),
       Fin.ofNat (0x80 + r3 / 64 % 64), Fin.ofNat (0x80 + r3 % 64)]

/-- Go `utf8.Valid`: every rune of `s` decodes without error.  The fuel is the
number of loop iterations; `s.length` is enough. -/
def validUTF8Aux : Nat → List Byte → Bool
  | 0, s => s.isEmpty
  | fuel + 1, s =>
    if s.isEmpty then true
    else
      let d := decodeRune s
      if d.1 = RuneError && d.2 = 1 then false else validUTF8Aux fuel (s.drop d.2)

/-- Go `utf8.Valid`. -/
def validUTF8 (s : List Byte) : Bool := validUTF8Aux s.length s

/-! ## `encoding/json`: Marshal -/

/-- The table `hex` of `encoding/json`: `"0123456789abcdef"`. -/
def hexDigit (n : Nat) : Byte :=
  if n < 10 then Fin.ofNat (48 + n) else Fin.ofNat (87 + n)

/-- The table `htmlSafeSet`: the ASCII bytes written into a JSON string as they
are: 0x20 and above, without the quote, the backslash, `<`, `>` and `&`. -/
def htmlSafe (b : Byte) : Bool :=
  0x20 ≤ b.val && b.val < 0x80 &&
    !(b.val = 0x22 || b.val = 0x26 || b.val = 0x3C || b.val = 0x3E || b.val = 0x5C)

/-- The escape `appendString` writes for an ASCII byte outside `htmlSafeSet`
(backspace and form feed as in Go 1.22 and later; earlier versions write their
six-byte escapes, which read back the same). -/
def escapeByte (b : Byte) : ByteSlice :=
  if b.val = 0x5C || b.val = 0x22 then [0x5C, b]
  else if b.val = 0x08 then [0x5C, 0x62]
  else if b.val = 0x0C then [0x5C, 0x66]
  else if b.val = 0x0A then [0x5C, 0x6E]
  else if b.val = 0x0D then [0x5C, 0x72]
  else if b.val = 0x09 then [0x5C, 0x74]
  else [0x5C, 0x75, 0x30, 0x30, hexDigit (b.val / 16), hexDigit (b.val % 16)]

/-- The loop of `appendString` (with `escapeHTML`), without the quotes: safe
ASCII and valid multi-byte runes are copied, other ASCII is escaped, an invalid
byte becomes `�`, U+2028 and U+2029 become ` ` and ` `. -/
def appendStringAux : Nat → GoString → ByteSlice
  | 0, _ => []
  | fuel + 1, src =>
    match src with
    | [] => []
    | b :: rest =>
      if b.val < 0x80 then
        (if htmlSafe b then [b] else escapeByte b) ++ appendStringAux fuel rest
      else
        let d := decodeRune (src.take 4)
        if d.1 = RuneError && d.2 = 1 then
          [0x5C, 0x75, 0x66, 0x66, 0x66, 0x64] ++ appendStringAux fuel rest
        else if d.1 = 0x2028 || d.1 = 0x2029 then
          [0x5C, 0x75, 0x32, 0x30, 0x32, hexDigit (d.1 % 16)] ++ appendStringAux fuel (src.drop d.2)
        else src.take d.2 ++ appendStringAux fuel (src.drop d.2)

/-- Go `appendString`: a Go string as a JSON string literal. -/
def appendString (s : GoString) : ByteSlice :=
  [0x22] ++ appendStringAux s.length s ++ [0x22]

/-- The alphabet of `base64.StdEncoding`. -/
def b64Char (n : Nat) : Byte :=
  if n < 26 then Fin.ofNat (65 + n)
  else if n < 52 then Fin.ofNat (71 + n)
  else if n < 62 then Fin.ofNat (n - 4)
  else if n = 62 then 0x2B
  else 0x2F

/-- Go `base64.StdEncoding.Encode`: three bytes to four characters, `=` padding. -/
def base64Encode : ByteSlice → ByteSlice
  | [] => []
  | [a] => [b64Char (a.val / 4), b64Char (a.val % 4 * 16), 0x3D, 0x3D]
  | [a, b] =>
    [b64Char (a.val / 4), b64Char (a.val % 4 * 16 + b.val / 16), b64Char (b.val % 16 * 4), 0x3D]
  | a :: b :: c :: rest =>
    [b64Char (a.val / 4), b64Char (a.val % 4 * 16 + b.val / 16),
     b64Char (b.val % 16 * 4 + c.val / 64), b64Char (c.val % 64)] ++ base64Encode rest

/-- The decimal digits of a natural number, most significant first. -/
def natDigits : Nat → Nat → ByteSlice
  | 0, _ => []
  | fuel + 1, n =>
    if n < 10 then [Fin.ofNat (48 + n)]
    else natDigits fuel (n / 10) ++ [Fin.ofNat (48 + n % 10)]

/-- Go `strconv.AppendInt(_, n, 10)`. -/
def appendInt (n : Int) : ByteSlice :=
  if n < 0 then [0x2D] ++ natDigits (n.natAbs + 1) n.natAbs else natDigits (n.natAbs + 1) n.natAbs

/-- The text `null`. -/
def jsonNull : ByteSlice := [0x6E, 0x75, 0x6C, 0x6C]

/-- A list of encoded JSON values joined with commas. -/
def joinComma : List ByteSlice → ByteSlice
  | [] => []
  | [x] => x
  | x :: y :: rest => x ++ [0x2C] ++ joinComma (y :: rest)

/-- Marshal of a `[]byte`: `null` for nil, else the base64 text in quotes. -/
def marshalBytes : Option ByteSlice → ByteSlice
  | none => jsonNull
  | some d => [0x22] ++ base64Encode d ++ [0x22]

/-- Marshal of a `[]string`: `null` for nil, else an array of JSON strings. -/
def marshalStrings : HeaderValues → ByteSlice
  | none => jsonNull
  | some vs => [0x5B] ++ joinComma (vs.map appendString) ++ [0x5D]

/-- Marshal of one map entry: `"key":[...]`. -/
def marshalEntry (e : GoString × HeaderValues) : ByteSlice :=
  appendString e.1 ++ [0x3A] ++ marshalStrings e.2

/-- Marshal of a `map[string][]string`: `null` for nil, else an object with the
entries in increasing key order. -/
def marshalHeader : HttpHeader → ByteSlice
  | none => jsonNull
  | some h => [0x7B] ++ joinComma (h.map marshalEntry) ++ [0x7D]

/-- Go `json.Marshal(m)` for `*MemoryResponseWriter`: the exported fields in
declaration order under their tags `data`, `status`, `header`; `buf` is
skipped. -/
def marshal (m : MemoryResponseWriter) : ByteSlice :=
  [0x7B] ++ appendString (ascii "data") ++ [0x3A] ++ marshalBytes m.Data ++ [0x2C] ++
    appendString (ascii "status") ++ [0x3A] ++ appendInt m.Status ++ [0x2C] ++
    appendString (ascii "header") ++ [0x3A] ++ marshalHeader m.Headers ++ [0x7D]

/-- Go `JsonBytes`: `return json.Marshal(m)`.  Marshal has no failing case for
these field types. -/
def MemoryResponseWriter.JsonBytes (m : MemoryResponseWriter) : Except GoError ByteSlice :=
  .ok (marshal m)

/-! ## `encoding/json`: Unmarshal -/

/-- Why `json.Unmarshal` is not given a result by this model: `rejected` when
Unmarshal returns a non-nil error (syntax error, type mismatch, corrupt
base64); `unmodelled` for an input whose result depends on state outside the
model (the spare capacity of a byte slice that a JSON array is decoded into). -/
inductive DecodeFail where
  | rejected
  | unmodelled
deriving DecidableEq

/-- A decoding step: the decoded value and the input that is left. -/
abbrev Parse (α : Type) := Except DecodeFail (α × ByteSlice)

/-- Go `isSpace` of the scanner: space, tab, carriage return, line feed. -/
def isSpace (c : Byte) : Bool :=
  c.val = 0x20 || c.val = 0x09 || c.val = 0x0D || c.val = 0x0A

/-- Skip JSON white space. -/
def skipSpace : ByteSlice → ByteSlice
  | [] => []
  | c :: rest => if isSpace c then skipSpace rest else c :: rest

/-- The value of a hexadecimal digit, either case. -/
def hexVal (c : Byte) : Option Nat :=
  if 0x30 ≤ c.val && c.val ≤ 0x39 then some (c.val - 0x30)
  else if 0x61 ≤ c.val && c.val ≤ 0x66 then some (c.val - 0x57)
  else if 0x41 ≤ c.val && c.val ≤ 0x46 then some (c.val - 0x37)
  else none

/-- Four hexadecimal digits. -/
def hex4 : ByteSlice → Option Nat
  | a :: b :: c :: d :: _ =>
    match hexVal a, hexVal b, hexVal c, hexVal d with
    | some a, some b, some c, some d => some (((a * 16 + b) * 16 + c) * 16 + d)
    | _, _, _, _ => none
  | _ => none

/-- Go `getu4`: the rune of a `\uXXXX` escape at the start of the input. -/
def getu4 : ByteSlice → Option Nat
  | a :: b :: rest => if a.val = 0x5C && b.val = 0x75 then hex4 rest else none
  | _ => none

/-- The byte a one-letter escape stands for. -/
def unescape (e : Byte) : Option Byte :=
  if e.val = 0x22 || e.val = 0x5C || e.val = 0x2F then some e
  else if e.val = 0x62 then some 0x08
  else if e.val = 0x66 then some 0x0C
  else if e.val = 0x6E then some 0x0A
  else if e.val = 0x72 then some 0x0D
  else if e.val = 0x74 then some 0x09
  else none

/-- Put decoded bytes in front of the rest of a decoded string. -/
def prepend (out : GoString) (r : Option (GoString × ByteSlice)) : Option (GoString × ByteSlice) :=
  r.map (fun p => (out ++ p.1, p.2))

/-- The scanner's string rules and `unquoteBytes` in one pass, from just after
the opening quote to just after the closing one: escapes are resolved,
surrogate pairs combined, a lone surrogate and an invalid UTF-8 byte become
U+FFFD; a control byte, an unknown escape or a missing closing quote fail. -/
def unquoteAux : Nat → ByteSlice → Option (GoString × ByteSlice)
  | 0, _ => none
  | _ + 1, [] => none
  | fuel + 1, c :: rest =>
    if c.val = 0x22 then some ([], rest)
    else if c.val = 0x5C then
      match rest with
      | [] => none
      | e :: rest1 =>
        if e.val = 0x75 then
          match hex4 rest1 with
          | none => none
          | some rr =>
            if 0xD800 ≤ rr && rr < 0xE000 then
              match getu4 (rest1.drop 4) with
              | some rr1 =>
                if rr < 0xDC00 && 0xDC00 ≤ rr1 && rr1 < 0xE000 then
                  prepend (encodeRune ((rr - 0xD800) * 1024 + (rr1 - 0xDC00) + 0x10000))
                    (unquoteAux fuel (rest1.drop 10))
                else prepend (encodeRune RuneError) (unquoteAux fuel (rest1.drop 4))
              | none => prepend (encodeRune RuneError) (unquoteAux fuel (rest1.drop 4))
            else prepend (encodeRune rr) (unquoteAux fuel (rest1.drop 4))
        else
          match unescape e with
          | some b => prepend [b] (unquoteAux fuel rest1)
          | none => none
    else if c.val < 0x20 then none
    else if c.val < 0x80 then prepend [c] (unquoteAux fuel rest)
    else
      let d := decodeRune (c :: rest)
      prepend (encodeRune d.1) (unquoteAux fuel ((c :: rest).drop d.2))

/-- A JSON string literal at the start of the input: its unquoted bytes. -/
def parseString : ByteSlice → Parse GoString
  | [] => .error .rejected
  | c :: rest =>
    if c.val = 0x22 then
      match unquoteAux (rest.length + 1) rest with
      | some r => .ok r
      | none => .error .rejected
    else .error .rejected

/-- The value of a character of the standard base64 alphabet. -/
def b64Val (c : Byte) : Option Nat :=
  if 0x41 ≤ c.val && c.val ≤ 0x5A then some (c.val - 0x41)
  else if 0x61 ≤ c.val && c.val ≤ 0x7A then some (c.val - 0x47)
  else if 0x30 ≤ c.val && c.val ≤ 0x39 then some (c.val + 4)
  else if c.val = 0x2B then some 62
  else if c.val = 0x2F then some 63
  else none

/-- The quanta of `base64.StdEncoding.Decode` (not strict): four characters
give three bytes; the last quantum may be `xx==` (one byte) or `xxx=` (two
bytes); anything else is corrupt input. -/
def base64DecodeAux : ByteSlice → Option ByteSlice
  | [] => some []
  | c0 :: c1 :: c2 :: c3 :: rest =>
    match b64Val c0, b64Val c1 with
    | some v0, some v1 =>
      if c2.val = 0x3D && c3.val = 0x3D && rest.isEmpty then
        some [Fin.ofNat (v0 * 4 + v1 / 16)]
      else
        match b64Val c2 with
        | some v2 =>
          if c3.val = 0x3D && rest.isEmpty then
            some [Fin.ofNat (v0 * 4 + v1 / 16), Fin.ofNat (v1 % 16 * 16 + v2 / 4)]
          else
            match b64Val c3, base64DecodeAux rest with
            | some v3, some tail =>
              some (Fin.ofNat (v0 * 4 + v1 / 16) :: Fin.ofNat (v1 % 16 * 16 + v2 / 4) ::
                Fin.ofNat (v2 % 4 * 64 + v3) :: tail)
            | _, _ => none
        | none => none
    | _, _ => none
  | _ => none

/-- Go `base64.StdEncoding.Decode`: line feeds and carriage returns in the input
are ignored. -/
def base64Decode (s : ByteSlice) : Option ByteSlice :=
  base64DecodeAux (s.filter (fun c => !(c.val = 0x0A || c.val = 0x0D)))

/-- A decimal digit. -/
def isDigit (c : Byte) : Bool := 0x30 ≤ c.val && c.val ≤ 0x39

/-- The longest prefix of digits, and the rest. -/
def spanDigits : ByteSlice → ByteSlice × ByteSlice
  | [] => ([], [])
  | c :: rest =>
    if isDigit c then ((c :: (spanDigits rest).1), (spanDigits rest).2) else ([], c :: rest)

/-- The number written by a list of decimal digits. -/
def digitsToNat (ds : ByteSlice) : Nat :=
  ds.foldl (fun acc d => acc * 10 + (d.val - 0x30)) 0

/-- A JSON number literal: sign, integer digits, and whether it has neither a
fraction nor an exponent. -/
structure NumLit where
  neg : Bool
  digits : ByteSlice
  integral : Bool
deriving DecidableEq

/-- The integer part of a number: `0`, or a non-zero digit and more digits. -/
def scanIntPart : ByteSlice → Option (ByteSlice × ByteSlice)
  | [] => none
  | c :: rest =>
    if c.val = 0x30 then some ([c], rest)
    else if isDigit c then some (c :: (spanDigits rest).1, (spanDigits rest).2)
    else none

/-- An optional fraction `.digits`: `none` when it is malformed. -/
def scanFrac : ByteSlice → Option (Bool × ByteSlice)
  | [] => some (false, [])
  | c :: rest =>
    if c.val = 0x2E then
      if (spanDigits rest).1.isEmpty then none else some (true, (spanDigits rest).2)
    else some (false, c :: rest)

/-- An optional exponent `e`, sign, digits: `none` when it is malformed. -/
def scanExp : ByteSlice → Option (Bool × ByteSlice)
  | [] => some (false, [])
  | c :: rest =>
    if c.val = 0x65 || c.val = 0x45 then
      let rest1 :=
        match rest with
        | s :: r => if s.val = 0x2B || s.val = 0x2D then r else s :: r
        | [] => []
      if (spanDigits rest1).1.isEmpty then none else some (true, (spanDigits rest1).2)
    else some (false, c :: rest)

/-- A JSON number literal at the start of the input. -/
def scanNumber (input : ByteSlice) : Option (NumLit × ByteSlice) :=
  let neg := match input with
    | c :: _ => c.val = 0x2D
    | [] => false
  let input1 := if neg then input.drop 1 else input
  match scanIntPart input1 with
  | none => none
  | some (ds, rest) =>
    match scanFrac rest with
    | none => none
    | some (hasFrac, rest1) =>
      match scanExp rest1 with
      | none => none
      | some (hasExp, rest2) => some (⟨neg, ds, !(hasFrac || hasExp)⟩, rest2)

/-- The input starts with the given literal: what follows it. -/
def expectLit : ByteSlice → ByteSlice → Option ByteSlice
  | [], input => some input
  | _ :: _, [] => none
  | l :: ls, c :: rest => if l = c then expectLit ls rest else none

/-- The nesting limit `maxNestingDepth` of the scanner. -/
def maxNestingDepth : Nat := 10000

mutual
/-- Check one JSON value of any type and skip it (the value of a key that is
not a field).  `depth` is the number of enclosing arrays and objects. -/
def skipValue : Nat → Nat → ByteSlice → Option ByteSlice
  | 0, _, _ => none
  | _ + 1, _, [] => none
  | fuel + 1, depth, c :: rest =>
    if c.val = 0x22 then (unquoteAux (rest.length + 1) rest).map (fun r => r.2)
    else if c.val = 0x6E then expectLit (ascii "ull") rest
    else if c.val = 0x74 then expectLit (ascii "rue") rest
    else if c.val = 0x66 then expectLit (ascii "alse") rest
    else if c.val = 0x5B then
      if depth + 1 > maxNestingDepth then none
      else
        match skipSpace rest with
        | [] => none
        | d :: rest1 =>
          if d.val = 0x5D then some rest1 else skipElems fuel (depth + 1) (d :: rest1)
    else if c.val = 0x7B then
      if depth + 1 > maxNestingDepth then none
      else
        match skipSpace rest with
        | [] => none
        | d :: rest1 =>
          if d.val = 0x7D then some rest1 else skipMembers fuel (depth + 1) (d :: rest1)
    else (scanNumber (c :: rest)).map (fun r => r.2)
/-- The elements of an array, from the first element to after the `]`. -/
def skipElems : Nat → Nat → ByteSlice → Option ByteSlice
  | 0, _, _ => none
  | fuel + 1, depth, input =>
    match skipValue fuel depth input with
    | none => none
    | some rest =>
      match skipSpace rest with
      | [] => none
      | d :: rest1 =>
        if d.val = 0x5D then some rest1
        else if d.val = 0x2C then skipElems fuel depth (skipSpace rest1)
        else none
/-- The members of an object, from the first key to after the `}`. -/
def skipMembers : Nat → Nat → ByteSlice → Option ByteSlice
  | 0, _, _ => none
  | fuel + 1, depth, input =>
    match parseString input with
    | .error _ => none
    | .ok (_, rest) =>
      match skipSpace rest with
      | [] => none
      | c :: rest1 =>
        if c.val = 0x3A then
          match skipValue fuel depth (skipSpace rest1) with
          | none => none
          | some rest2 =>
            match skipSpace rest2 with
            | [] => none
            | d :: rest3 =>
              if d.val = 0x7D then some rest3
              else if d.val = 0x2C then skipMembers fuel depth (skipSpace rest3)
              else none
        else none
end

/-- The literal `null` (after its first letter): the value and what follows. -/
def afterNull {α : Type} (a : α) (rest : ByteSlice) : Parse α :=
  match expectLit (ascii "ull") rest with
  | some r => .ok (a, r)
  | none => .error .rejected

/-- One element of a `[]string`: a string, or `null` which leaves the fresh
element empty. -/
def decodeStringElem : ByteSlice → Parse GoString
  | [] => .error .rejected
  | c :: rest =>
    if c.val = 0x22 then parseString (c :: rest)
    else if c.val = 0x6E then afterNull [] rest
    else .error .rejected

/-- The elements of a `[]string`, from the first element to after the `]`. -/
def decodeStringElems : Nat → ByteSlice → Parse (List GoString)
  | 0, _ => .error .rejected
  | fuel + 1, input =>
    match decodeStringElem input with
    | .error e => .error e
    | .ok (v, rest) =>
      match skipSpace rest with
      | [] => .error .rejected
      | d :: rest1 =>
        if d.val = 0x5D then .ok ([v], rest1)
        else if d.val = 0x2C then
          match decodeStringElems fuel (skipSpace rest1) with
          | .error e => .error e
          | .ok (vs, rest2) => .ok (v :: vs, rest2)
        else .error .rejected

/-- A value decoded into a fresh `[]string` (a map element): `null` gives the
nil slice, an array its strings, `[]` the empty non-nil slice. -/
def decodeStrings : ByteSlice → Parse HeaderValues
  | [] => .error .rejected
  | c :: rest =>
    if c.val = 0x6E then afterNull none rest
    else if c.val = 0x5B then
      match skipSpace rest with
      | [] => .error .rejected
      | d :: rest1 =>
        if d.val = 0x5D then .ok (some [], rest1)
        else
          match decodeStringElems (rest.length + 1) (d :: rest1) with
          | .error e => .error e
          | .ok (vs, rest2) => .ok (some vs, rest2)
    else .error .rejected

/-- The members of the `header` object, from the first key to after the `}`:
each value is decoded into a fresh element and stored under its key. -/
def decodeHeaderMembers : Nat → HeaderMap → ByteSlice → Parse HeaderMap
  | 0, _, _ => .error .rejected
  | fuel + 1, h, input =>
    match parseString input with
    | .error e => .error e
    | .ok (key, rest) =>
      match skipSpace rest with
      | [] => .error .rejected
      | c :: rest1 =>
        if c.val = 0x3A then
          match decodeStrings (skipSpace rest1) with
          | .error e => .error e
          | .ok (vs, rest2) =>
            match skipSpace rest2 with
            | [] => .error .rejected
            | d :: rest3 =>
              if d.val = 0x7D then .ok (h.store key vs, rest3)
              else if d.val = 0x2C then decodeHeaderMembers fuel (h.store key vs) (skipSpace rest3)
              else .error .rejected
        else .error .rejected

/-- A value decoded into the field `Headers`: `null` sets the nil map; an
object is merged into the map that is there (a nil map is made first). -/
def decodeHeader (cur : HttpHeader) : ByteSlice → Parse HttpHeader
  | [] => .error .rejected
  | c :: rest =>
    if c.val = 0x6E then afterNull none rest
    else if c.val = 0x7B then
      match skipSpace rest with
      | [] => .error .rejected
      | d :: rest1 =>
        if d.val = 0x7D then .ok (some (cur.getD []), rest1)
        else
          match decodeHeaderMembers (rest.length + 1) (cur.getD []) (d :: rest1) with
          | .error e => .error e
          | .ok (h, rest2) => .ok (some h, rest2)
    else .error .rejected

/-- A value decoded into the field `Data`: `null` sets the nil slice, a string
is base64-decoded into a new slice.  A JSON array is decoded element by
element into the slice that is there, which is outside this model. -/
def decodeData : ByteSlice → Parse (Option ByteSlice)
  | [] => .error .rejected
  | c :: rest =>
    if c.val = 0x6E then afterNull none rest
    else if c.val = 0x22 then
      match parseString (c :: rest) with
      | .error e => .error e
      | .ok (s, rest1) =>
        match base64Decode s with
        | some d => .ok (some d, rest1)
        | none => .error .rejected
    else if c.val = 0x5B then .error .unmodelled
    else .error .rejected

/-- A value decoded into the field `Status`: `null` leaves it as it is; a
number must be an integer literal in the range of a 64-bit `int`
(`strconv.ParseInt`). -/
def decodeStatus (cur : Int) : ByteSlice → Parse Int
  | [] => .error .rejected
  | c :: rest =>
    if c.val = 0x6E then afterNull cur rest
    else
      match scanNumber (c :: rest) with
      | none => .error .rejected
      | some (lit, rest1) =>
        let v : Int := if lit.neg then -(digitsToNat lit.digits : Int) else (digitsToNat lit.digits : Int)
        if lit.integral && decide (-(2 : Int) ^ 63 ≤ v) && decide (v < (2 : Int) ^ 63) then .ok (v, rest1)
        else .error .rejected

/-- Go `foldName` as far as it matters for the field names of this struct: ASCII
letters are upper-cased and U+017F (bytes C5 BF), whose fold is `S`, becomes
`S`; no other rune folds to a letter of `data`, `status` or `header`. -/
def foldName : GoString → GoString
  | [] => []
  | [c] => [if 0x61 ≤ c.val && c.val ≤ 0x7A then Fin.ofNat (c.val - 32) else c]
  | c :: d :: rest =>
    if c.val = 0xC5 && d.val = 0xBF then 0x53 :: foldName rest
    else (if 0x61 ≤ c.val && c.val ≤ 0x7A then Fin.ofNat (c.val - 32) else c) :: foldName (d :: rest)

/-- Decode the value of one member of the top-level object into the field its
key names (exactly or up to case folding); the value of any other key is
checked and skipped. -/
def decodeField (m : MemoryResponseWriter) (key : GoString) (input : ByteSlice) :
    Parse MemoryResponseWriter :=
  if foldName key = ascii "DATA" then
    match decodeData input with
    | .error e => .error e
    | .ok (d, rest) => .ok ({ m with Data := d }, rest)
  else if foldName key = ascii "STATUS" then
    match decodeStatus m.Status input with
    | .error e => .error e
    | .ok (st, rest) => .ok ({ m with Status := st }, rest)
  else if foldName key = ascii "HEADER" then
    match decodeHeader m.Headers input with
    | .error e => .error e
    | .ok (h, rest) => .ok ({ m with Headers := h }, rest)
  else
    match skipValue (input.length + 1) 1 input with
    | some rest => .ok (m, rest)
    | none => .error .rejected

/-- The members of the top-level object, from the first key to after the `}`. -/
def decodeMembers : Nat → MemoryResponseWriter → ByteSlice → Parse MemoryResponseWriter
  | 0, _, _ => .error .rejected
  | fuel + 1, m, input =>
    match parseString input with
    | .error e => .error e
    | .ok (key, rest) =>
      match skipSpace rest with
      | [] => .error .rejected
      | c :: rest1 =>
        if c.val = 0x3A then
          match decodeField m key (skipSpace rest1) with
          | .error e => .error e
          | .ok (m1, rest2) =>
            match skipSpace rest2 with
            | [] => .error .rejected
            | d :: rest3 =>
              if d.val = 0x7D then .ok (m1, rest3)
              else if d.val = 0x2C then decodeMembers fuel m1 (skipSpace rest3)
              else .error .rejected
        else .error .rejected

/-- Nothing but white space may follow the top-level value. -/
def atEnd (r : Parse MemoryResponseWriter) : Except DecodeFail MemoryResponseWriter :=
  match r with
  | .error e => .error e
  | .ok (m, tail) => if (skipSpace tail).isEmpty then .ok m else .error .rejected

/-- Go `json.Unmarshal(bs, m)` for `*MemoryResponseWriter`, when it returns nil:
the updated struct.  An object is decoded member by member into `m`; `null`
leaves `m` as it is; any other value, and any text that is not one JSON value,
is an error.  What Unmarshal has already stored when it returns an error is
not modelled. -/
def unmarshal (bs : ByteSlice) (m : MemoryResponseWriter) : Except DecodeFail MemoryResponseWriter :=
  match skipSpace bs with
  | [] => .error .rejected
  | c :: rest =>
    if c.val = 0x7B then
      match skipSpace rest with
      | [] => .error .rejected
      | d :: rest1 =>
        if d.val = 0x7D then atEnd (.ok (m, rest1))
        else atEnd (decodeMembers (rest.length + 1) m (d :: rest1))
    else if c.val = 0x6E then atEnd (afterNull m rest)
    else .error .rejected

/-- Go `FromJsonBytes`: `return json.Unmarshal(bs, m)`. -/
def MemoryResponseWriter.FromJsonBytes (m : MemoryResponseWriter) (bs : ByteSlice) :
    Except DecodeFail MemoryResponseWriter :=
  unmarshal bs m

/-! ## `Fwd` -/

/-- What the sink `w` of `m.Fwd(w)` shares with the buffer `m`.  A Go map is a
reference, and `Header()` returns the map itself, so two writers can hold the
same map. -/
inductive Sharing where
  -- the sink is another response writer, with a header map of its own
  | nothing
  -- the sink is another MemoryResponseWriter whose Headers is the map m.Headers
  | headerMap
  -- the sink is m itself: m.Fwd(m)
  | everything
deriving DecidableEq

/-- The two objects during a call of `Fwd`, and the calls made on the sink so
far, in order. -/
structure FwdRun where
  m : MemoryResponseWriter
  w : MemoryResponseWriter
  calls : List SinkCall
deriving DecidableEq

/-- One call on the sink.  What the sink shares with the buffer changes in the
buffer too.  `none` is a panic. -/
def FwdRun.call (s : Sharing) (st : FwdRun) (c : SinkCall) : Option FwdRun :=
  match st.w.call c with
  | none => none
  | some w1 =>
    some { m := match s with
                | .nothing => st.m
                | .headerMap => { st.m with Headers := w1.Headers }
                | .everything => w1,
           w := w1,
           calls := st.calls ++ [c] }

/-- The inner loop of `Fwd`: `for _, vv := range v { w.Header().Add(k, vv) }`.
The slice `v` was read when the loop was entered. -/
def fwdValues (s : Sharing) (k : GoString) : List GoString → FwdRun → Option FwdRun
  | [], st => some st
  | vv :: rest, st =>
    match st.call s (.headerAdd k vv) with
    | none => none
    | some st1 => fwdValues s k rest st1

/-- The outer loop of `Fwd`: `for k, v := range m.Headers`, over the keys in the
order in which `range` visits them; `v` is the value that `m.Headers` holds for
`k` when `k` is visited. -/
def fwdHeaders (s : Sharing) : List GoString → FwdRun → Option FwdRun
  | [], st => some st
  | k :: rest, st =>
    match fwdValues s k (((st.m.Headers.getD []).index k).getD []) st with
    | none => none
    | some st1 => fwdHeaders s rest st1

/-- The state in which `m.Fwd(w)` starts, for a sink `w` that shares `s` with
`m`: with `everything` the sink is `m`, with `headerMap` it holds the map of `m`. -/
def FwdRun.start (m w : MemoryResponseWriter) : Sharing → FwdRun
  | .nothing => { m := m, w := w, calls := [] }
  | .headerMap => { m := m, w := { w with Headers := m.Headers }, calls := [] }
  | .everything => { m := m, w := m, calls := [] }

/-- Go `Fwd`: the buffer and the sink afterwards and the calls made on the sink;
`none` is a panic.  `order` is the order in which `range m.Headers` visits the
keys, which Go does not specify: a permutation of the keys of the map.  (An
entry that is inserted into the map during the loop may or may not be visited;
here it is not.  With a sink that shares nothing no entry is inserted.) -/
def MemoryResponseWriter.Fwd (m w : MemoryResponseWriter) (s : Sharing) (order : List GoString) :
    Option FwdRun :=
  match fwdHeaders s order (FwdRun.start m w s) with
  | none => none
  | some st1 =>
    match st1.call s (.writeHeader st1.m.Status) with
    | none => none
    | some st2 => st2.call s (.write (st2.m.Data.getD []))

/-! ## `handle` -/

/-- The struct `ReqMsg`.  `Data` is only read as bytes, so nil is the empty
list. -/
structure ReqMsg where
  Id : GoString
  Data : ByteSlice
  Err : GoString
deriving DecidableEq

/-- How a call of `router.ServeHTTP(res, req)` ends: the handler returns or it
panics; either way `res` is the response writer as the handler left it. -/
inductive RouterResult where
  | returned (res : MemoryResponseWriter)
  | panicked (res : MemoryResponseWriter)
deriving DecidableEq

/-- The Router (`mux.Router` with the handlers registered by the application),
which is not part of `lib.go`.  A handler holds the pointer `res`: it can call
`Write` and `WriteHeader`, change the live map that `Header()` returns in any
way (the methods of `http.Header`, map stores and deletes, stores into a value
slice), and assign the exported fields.  So the Router is any function from the
request and the writer it is handed to the way the call ends. -/
abbrev Router (Req : Type) := Req → MemoryResponseWriter → RouterResult

/-- Go `router.ServeHTTP(res, req)`. -/
def ServeHTTP {Req : Type} (router : Router Req) (res : MemoryResponseWriter) (req : Req) :
    RouterResult :=
  router req res

/-- The connection as one call of `handle` sees it: what `c.ReadJSON` delivers
and what `c.WriteJSON` returns for a record. -/
structure Conn where
  readJSON : Except GoError ReqMsg
  writeJSON : ReqMsg → Option GoError

/-- How a call ends: it returns an error value (`none` is nil), or it panics. -/
inductive Outcome where
  | returned (err : Option GoError)
  | panicked
deriving DecidableEq

/-- What one call of `handle` does: the requests handed to the Router, the
records sent (the arguments of its calls of `c.WriteJSON`), and how the call
ends. -/
structure HandleResult (Req : Type) where
  dispatched : List Req
  sent : List ReqMsg
  outcome : Outcome

/-- Go `handle`.  `readRequest` is `http.ReadRequest` on the bytes of `ci.Data`,
`lid` the package variable set at the handshake.  After a successful
`ReadRequest` the variable `err` is nil, so of `if err != nil {...} else {...}`
the else branch runs. -/
def handle {Req : Type} (readRequest : ByteSlice → Except GoError Req) (router : Router Req)
    (lid : GoString) (c : Conn) : HandleResult Req :=
  match c.readJSON with
  | .error err => ⟨[], [], .returned (some err)⟩
  | .ok ci =>
    match readRequest ci.Data with
    | .error err => ⟨[], [], .returned (some err)⟩
    | .ok req =>
      let res := NewMemoryResponseWriter
      match (res.call (.headerAdd (ascii "X-STRAW-RESID") ci.Id)).bind
          (fun r => r.call (.headerAdd (ascii "X-STRAW-EPID") lid)) with
      | none => ⟨[], [], .panicked⟩
      | some res1 =>
        match ServeHTTP router res1 req with
        | .panicked _ => ⟨[req], [], .panicked⟩
        | .returned res2 =>
          let res3 := res2.Close
          let out : ReqMsg := { Id := ci.Id, Data := [], Err := [] }
          let out1 : ReqMsg :=
            match res3.JsonBytes with
            | .ok data => { out with Data := data }
            | .error _ => out
          ⟨[req], [out1], .returned (c.writeJSON out1)⟩

/-- The fresh buffer with the two diagnostic headers, as `handle` hands it to
the Router. -/
def diagBuffer (id lid : GoString) : MemoryResponseWriter :=
  { NewMemoryResponseWriter with
    Headers := some ((HeaderMap.Add [] (ascii "X-STRAW-RESID") id).Add (ascii "X-STRAW-EPID") lid) }

/-- The buffer that `handle` finalizes and serializes for a request: the fresh
buffer with the two diagnostic headers, after the Router and `Close`; `none`
when the Router panics. -/
def envelope {Req : Type} (router : Router Req) (lid : GoString) (id : GoString) (req : Req) :
    Option MemoryResponseWriter :=
  match (NewMemoryResponseWriter.call (.headerAdd (ascii "X-STRAW-RESID") id)).bind
      (fun r => r.call (.headerAdd (ascii "X-STRAW-EPID") lid)) with
  | none => none
  | some res1 =>
    match ServeHTTP router res1 req with
    | .panicked _ => none
    | .returned res2 => some res2.Close

/-! ## `serveOnce`: the relay loop and the watchdog -/

/-- The variables that the relay loop and the watchdog goroutine of one
connection share, and where the two are: `conn` is `c != nil`, `watchdog` is
false once the goroutine has returned, `unwound` is true once a panic has left
the loop. -/
structure ActiveState where
  errCount : Int
  conn : Bool
  watchdog : Bool
  unwound : Bool
deriving DecidableEq

/-- The state when the loop is entered: `errCount := 0`, the connection open,
the watchdog started. -/
def ActiveState.init : ActiveState :=
  { errCount := 0, conn := true, watchdog := true, unwound := false }

/-- One iteration of `for c != nil { err = handle(c); if err != nil { errCount++ } }`
for the given end of the call of `handle`.  Once `c` is nil or a panic has
unwound `serveOnce` there is no further iteration. -/
def relayStep (s : ActiveState) (o : Outcome) : ActiveState :=
  if s.conn && !s.unwound then
    match o with
    | .returned none => s
    | .returned (some _) => { s with errCount := s.errCount + 1 }
    | .panicked => { s with unwound := true }
  else s

/-- One iteration of the watchdog loop
`for errCount != -1 { sleep; if errCount > 10 { c.Close(); c = nil; return } }`. -/
def watchdogStep (s : ActiveState) : ActiveState :=
  if s.watchdog then
    if s.errCount = -1 then { s with watchdog := false }
    else if s.errCount > 10 then { s with conn := false, watchdog := false }
    else s
  else s

/-- A step of one connection: an iteration of the relay loop, with the end of
its call of `handle`, or an iteration of the watchdog. -/
inductive ActiveStep where
  | relay (o : Outcome)
  | watchdogCheck
deriving DecidableEq

/-- One step. -/
def ActiveState.step (s : ActiveState) : ActiveStep → ActiveState
  | .relay o => relayStep s o
  | .watchdogCheck => watchdogStep s

/-- A run: the steps of the two loops in the order in which they happen. -/
def ActiveState.run (s : ActiveState) (steps : List ActiveStep) : ActiveState :=
  steps.foldl ActiveState.step s

/-- The number of relay iterations in a run whose `handle` returned an error. -/
def failures : List ActiveStep → Nat
  | [] => 0
  | .relay (.returned (some _)) :: rest => failures rest + 1
  | _ :: rest => failures rest

/-! ## Definitions used by the statements and the proofs -/

/-- The shapes of a valid first rune. -/
inductive RuneShape : List Byte → Nat → Nat → Prop
  | one (p0 : Byte) (rest : List Byte) (h : p0.val < 0x80) : RuneShape (p0 :: rest) p0.val 1
  | two (p0 b1 : Byte) (rest : List Byte) (h0 : 0xC2 ≤ p0.val) (h1 : p0.val < 0xE0)
      (h2 : 0x80 ≤ b1.val) (h3 : b1.val ≤ 0xBF) :
      RuneShape (p0 :: b1 :: rest) (p0.val % 32 * 64 + b1.val % 64) 2
  | three (p0 b1 b2 : Byte) (rest : List Byte) (h0 : 0xE0 ≤ p0.val) (h1 : p0.val < 0xF0)
      (h2 : (if p0.val = 0xE0 then 0xA0 else 0x80) ≤ b1.val)
      (h3 : b1.val ≤ (if p0.val = 0xED then 0x9F else 0xBF))
      (h4 : 0x80 ≤ b2.val) (h5 : b2.val ≤ 0xBF) :
      RuneShape (p0 :: b1 :: b2 :: rest) (p0.val % 16 * 4096 + b1.val % 64 * 64 + b2.val % 64) 3
  | four (p0 b1 b2 b3 : Byte) (rest : List Byte) (h0 : 0xF0 ≤ p0.val) (h1 : p0.val < 0xF5)
      (h2 : (if p0.val = 0xF0 then 0x90 else 0x80) ≤ b1.val)
      (h3 : b1.val ≤ (if p0.val = 0xF4 then 0x8F else 0xBF))
      (h4 : 0x80 ≤ b2.val) (h5 : b2.val ≤ 0xBF) (h6 : 0x80 ≤ b3.val) (h7 : b3.val ≤ 0xBF) :
      RuneShape (p0 :: b1 :: b2 :: b3 :: rest)
        (p0.val % 8 * 262144 + b1.val % 64 * 4096 + b2.val % 64 * 64 + b3.val % 64) 4

/-- A byte that a JSON string holds as it is. -/
def plainByte (b : Byte) : Bool :=
  0x20 ≤ b.val && b.val < 0x80 && !(b.val = 0x22) && !(b.val = 0x5C)

/-- The property of every byte of an encoded text. -/
def b64Text (c : Byte) : Bool :=
  plainByte c && !(c.val = 0x0A || c.val = 0x0D)

/-- Every string of a value list is valid UTF-8. -/
def HeaderValues.valid (vs : HeaderValues) : Bool :=
  (vs.getD []).all validUTF8

/-- Every key and every value of a map is valid UTF-8. -/
def HeaderMap.validStrings (h : HeaderMap) : Bool :=
  h.all (fun e => validUTF8 e.1 && HeaderValues.valid e.2)

/-- A Router whose handler writes the start of a body and then panics. -/
def panicRouter : Router Unit := fun _ res => .panicked (res.Write (ascii "par")).1

/-- A Router whose handler calls `w.Header().Del("X-STRAW-RESID")` and returns. -/
def delRouter : Router Unit := fun _ res =>
  .returned { res with Headers := res.Header.map (fun h => h.Del (ascii "X-STRAW-RESID")) }

/-- A Router whose handler calls `w.Header().Set("Content-Type", "text/plain")`,
`w.WriteHeader(404)` and `w.Write("no")`, and returns.  (`Set` on a nil map
panics.) -/
def okRouter : Router Unit := fun _ res =>
  match res.Header with
  | none => .panicked res
  | some h =>
    let res1 := { res with Headers := some (h.Set (ascii "Content-Type") (ascii "text/plain")) }
    .returned ((res1.WriteHeader 404).Write (ascii "no")).1

/-- The buffer that `handle` serializes for the record `r1` and the session
`ep-123` when the Router is `delRouter`. -/
def delEnvelope : MemoryResponseWriter :=
  { buf := [], Data := none, Status := 200,
    Headers := some [(ascii "X-Straw-Epid", some [ascii "ep-123"])] }

/-- The bytes of a request that `http.ReadRequest` parses: the request line
`GET / HTTP/1.1`, the header line `Host: example.com`, each ended by CR LF, and
the empty line that ends the header. -/
def sampleRequest : ByteSlice :=
  ascii "GET / HTTP/1.1" ++ [13, 10] ++ ascii "Host: example.com" ++ [13, 10] ++ [13, 10]

/-- A connection that delivers the record with id `r1`, whose data is
`sampleRequest`, and accepts every write. -/
def sampleConn : Conn :=
  { readJSON := .ok { Id := ascii "r1", Data := sampleRequest, Err := [] }, writeJSON := fun _ => none }

/-- The part of `http.ReadRequest` that the examples use.  On empty data
`ReadRequest` returns `io.EOF`; `sampleRequest` it parses; on any other data
this function reports an error, so it accepts nothing that `ReadRequest`
rejects. -/
def sampleReadRequest : ByteSlice → Except GoError Unit :=
  fun data =>
    if data.isEmpty then .error "EOF"
    else if data = sampleRequest then .ok ()
    else .error "malformed HTTP request"

/-- A connection that delivers a record whose data is not an HTTP request. -/
def badConn : Conn :=
  { readJSON := .ok { Id := ascii "r2", Data := [], Err := [] }, writeJSON := fun _ => none }

/-- Go `Header().Add` for each pair in turn. -/
def addAll (h : HeaderMap) (pairs : List (GoString × GoString)) : HeaderMap :=
  pairs.foldl (fun acc p => acc.Add p.1 p.2) h

/-- The `(key, value)` pairs that the two loops of `Fwd` visit in a map that
does not change during the loops, for the order in which the keys are visited. -/
def fwdPairs (hm : HeaderMap) (order : List GoString) : List (GoString × GoString) :=
  order.flatMap (fun k => ((hm.index k).getD []).map (fun vv => (k, vv)))

/-- A finalized buffer with two headers. -/
def sampleBuffer : MemoryResponseWriter :=
  { buf := ascii "hi", Data := some (ascii "hi"), Status := 404,
    Headers := some [(ascii "Content-Type", some [ascii "text/plain"]),
                     (ascii "X-Straw-Epid", some [ascii "ep-123"])] }

/-- The buffer `sampleBuffer` after `sampleBuffer.Fwd(sampleBuffer)`: every
header value twice, and the body written once more into the buffer. -/
def replayedOntoItself : MemoryResponseWriter :=
  { buf := ascii "hihi", Data := some (ascii "hi"), Status := 404,
    Headers := some [(ascii "Content-Type", some [ascii "text/plain", ascii "text/plain"]),
                     (ascii "X-Straw-Epid", some [ascii "ep-123", ascii "ep-123"])] }

/-- A buffer whose header map is nil: what `FromJsonBytes` makes of a fresh
buffer when the object read has `"header":null`. -/
def nilHeaderSink : MemoryResponseWriter :=
  { buf := [], Data := none, Status := 0, Headers := none }

/-- A buffer with a header value that is not valid UTF-8 (the byte 0xFF). -/
def binaryHeaderBuffer : MemoryResponseWriter :=
  { buf := [], Data := none, Status := 200, Headers := some [(ascii "K", some [[0xFF]])] }

/-! # Theorems -/

theorem lookup_store_self (h : HeaderMap) (k : GoString) (v : HeaderValues) :
    (h.store k v).lookup k = some v := by
  induction h with
  | nil => simp [HeaderMap.store, HeaderMap.lookup]
  | cons e rest ih =>
    obtain ⟨k', v'⟩ := e
    simp only [HeaderMap.store]
    split
    · simp [HeaderMap.lookup]
    · split
      · simp [HeaderMap.lookup]
      · simp [HeaderMap.lookup, *]

theorem lookup_store_ne (h : HeaderMap) (k k' : GoString) (v : HeaderValues) (hne : k' ≠ k) :
    (h.store k v).lookup k' = h.lookup k' := by
  induction h with
  | nil => simp [HeaderMap.store, HeaderMap.lookup, hne]
  | cons e rest ih =>
    obtain ⟨k1, v1⟩ := e
    simp only [HeaderMap.store]
    split
    · next heq => subst heq; simp [HeaderMap.lookup, hne]
    · split
      · simp [HeaderMap.lookup, hne]
      · simp [HeaderMap.lookup, ih]

theorem lookup_delete_ne (h : HeaderMap) (k k' : GoString) (hne : k' ≠ k) :
    (h.delete k).lookup k' = h.lookup k' := by
  induction h with
  | nil => simp [HeaderMap.delete, HeaderMap.lookup]
  | cons e rest ih =>
    obtain ⟨k1, v1⟩ := e
    simp only [HeaderMap.delete]
    split
    · next heq => subst heq; simp [HeaderMap.lookup, hne, ih]
    · simp [HeaderMap.lookup, ih]

theorem index_store_self (h : HeaderMap) (k : GoString) (v : HeaderValues) :
    (h.store k v).index k = v := by
  simp [HeaderMap.index, lookup_store_self]

theorem index_store_ne (h : HeaderMap) (k k' : GoString) (v : HeaderValues) (hne : k' ≠ k) :
    (h.store k v).index k' = h.index k' := by
  simp [HeaderMap.index, lookup_store_ne _ _ _ _ hne]

theorem index_delete_ne (h : HeaderMap) (k k' : GoString) (hne : k' ≠ k) :
    (h.delete k).index k' = h.index k' := by
  simp [HeaderMap.index, lookup_delete_ne _ _ _ hne]

theorem canon_resid : CanonicalMIMEHeaderKey (ascii "X-STRAW-RESID") = ascii "X-Straw-Resid" := by
  decide

theorem canon_epid : CanonicalMIMEHeaderKey (ascii "X-STRAW-EPID") = ascii "X-Straw-Epid" := by
  decide

theorem diag_adds (id lid : GoString) :
    (NewMemoryResponseWriter.call (.headerAdd (ascii "X-STRAW-RESID") id)).bind
      (fun r => r.call (.headerAdd (ascii "X-STRAW-EPID") lid)) = some (diagBuffer id lid) := by
  simp [MemoryResponseWriter.call, MemoryResponseWriter.Header,
    NewMemoryResponseWriter, diagBuffer]

theorem writeAll_spec (m : MemoryResponseWriter) (bs : List ByteSlice) :
    (m.writeAll bs).1 = { m with buf := m.buf ++ bs.flatten } ∧
    (m.writeAll bs).2 = bs.map (fun b => (b.length, none)) := by
  induction bs generalizing m with
  | nil => simp [MemoryResponseWriter.writeAll]
  | cons b bs ih =>
    have h := ih (m.Write b).1
    simp only [MemoryResponseWriter.writeAll, h.1, h.2]
    simp [MemoryResponseWriter.Write, List.append_assoc]

theorem bufferBytes_getD (b : ByteSlice) : (Buffer.Bytes b).getD [] = b := by
  unfold Buffer.Bytes
  split <;> simp_all

/-- Claim C5.  `Close` defaults the status: the status after `Close` is 200 when it was 0 and is unchanged when it was any other value; a buffer made by `NewMemoryResponseWriter` and only written to has status 0, so after `Close` its status is 200. -/
theorem close_defaults_status (m : MemoryResponseWriter) (bs : List ByteSlice) :
    m.Close.Status = (if m.Status = 0 then 200 else m.Status) ∧
    (NewMemoryResponseWriter.writeAll bs).1.Status = 0 ∧
    (NewMemoryResponseWriter.writeAll bs).1.Close.Status = 200 := by
  refine ⟨?_, ?_, ?_⟩
  · unfold MemoryResponseWriter.Close
    split <;> simp_all
  · rw [(writeAll_spec _ bs).1]; rfl
  · rw [(writeAll_spec _ bs).1]; rfl

/-- Claim C6.  `Close` is idempotent: for every buffer, hence for every state reached from `NewMemoryResponseWriter` by `Write`, `WriteHeader` and header mutations, a second `Close` leaves the same `Status`, `Headers`, `Data` and `Bytes()` as the first. -/
theorem close_idempotent (m : MemoryResponseWriter) :
    m.Close.Close.Status = m.Close.Status ∧ m.Close.Close.Headers = m.Close.Headers ∧
    m.Close.Close.Data = m.Close.Data ∧ m.Close.Close.Bytes = m.Close.Bytes := by
  unfold MemoryResponseWriter.Close MemoryResponseWriter.Bytes
  by_cases h : m.Status = 0 <;> simp [h]

/-- Claim C10.  Body accumulation: on a buffer made by `NewMemoryResponseWriter`, a sequence of `Write` calls returns `(len(b), nil)` for each `b`, `Bytes()` then holds the concatenation of the written byte strings and so does `Data` after `Close`; one `Write` appends to `Bytes()`, returns `(len(b), nil)` and changes neither `Status` nor `Headers`. -/
theorem write_accumulates (bs : List ByteSlice) (m : MemoryResponseWriter) (b : ByteSlice) :
    (NewMemoryResponseWriter.writeAll bs).2 = bs.map (fun b => (b.length, none)) ∧
    (NewMemoryResponseWriter.writeAll bs).1.Bytes.getD [] = bs.flatten ∧
    (NewMemoryResponseWriter.writeAll bs).1.Close.Data.getD [] = bs.flatten ∧
    (m.Write b).2 = (b.length, none) ∧
    (m.Write b).1.Bytes.getD [] = m.Bytes.getD [] ++ b ∧
    (m.Write b).1.Status = m.Status ∧ (m.Write b).1.Headers = m.Headers := by
  have h := writeAll_spec NewMemoryResponseWriter bs
  refine ⟨h.2, ?_, ?_, rfl, ?_, rfl, rfl⟩
  · rw [h.1]; simp [MemoryResponseWriter.Bytes, bufferBytes_getD, NewMemoryResponseWriter]
  · rw [h.1]; unfold MemoryResponseWriter.Close
    simp [bufferBytes_getD, NewMemoryResponseWriter]
  · simp [MemoryResponseWriter.Bytes, bufferBytes_getD, MemoryResponseWriter.Write]

theorem ofNat_val (n : Nat) : ((Fin.ofNat n : Byte)).val = n % 256 := rfl

theorem byte_eq_ofNat (b : Byte) (n : Nat) (h : n % 256 = b.val) : (Fin.ofNat n : Byte) = b :=
  Fin.ext h

theorem decodeRune_shape (s : List Byte) (hne : s ≠ [])
    (hv : ¬ ((decodeRune s).1 = RuneError ∧ (decodeRune s).2 = 1)) :
    RuneShape s (decodeRune s).1 (decodeRune s).2 := by
  cases s with
  | nil => exact absurd rfl hne
  | cons p0 rest =>
    unfold decodeRune at hv ⊢
    by_cases c1 : p0.val < 0x80
    · simp only [c1, if_true]
      exact RuneShape.one p0 rest c1
    · simp only [c1, if_false] at hv ⊢
      by_cases c2 : p0.val < 0xC2
      · simp [c2] at hv
      · simp only [c2, if_false] at hv ⊢
        by_cases c3 : p0.val < 0xE0
        · simp only [c3, if_true] at hv ⊢
          cases rest with
          | nil => simp at hv
          | cons b1 rest1 =>
            simp only at hv ⊢
            by_cases c4 : inRange 0x80 0xBF b1 = true
            · simp only [c4, if_true]
              simp only [inRange, Bool.and_eq_true, decide_eq_true_eq] at c4
              exact RuneShape.two p0 b1 rest1 (by omega) c3 c4.1 c4.2
            · simp [c4] at hv
        · simp only [c3, if_false] at hv ⊢
          by_cases c5 : p0.val < 0xF0
          · simp only [c5, if_true] at hv ⊢
            rcases rest with _ | ⟨b1, _ | ⟨b2, rest2⟩⟩
            · simp at hv
            · simp at hv
            · simp only at hv ⊢
              by_cases c6 : (inRange (if p0.val = 0xE0 then 0xA0 else 0x80)
                  (if p0.val = 0xED then 0x9F else 0xBF) b1 && inRange 0x80 0xBF b2) = true
              · simp only [c6, if_true]
                simp only [inRange, Bool.and_eq_true, decide_eq_true_eq] at c6
                exact RuneShape.three p0 b1 b2 rest2 (by omega) c5 c6.1.1 c6.1.2 c6.2.1 c6.2.2
              · simp [c6] at hv
          · simp only [c5, if_false] at hv ⊢
            by_cases c7 : p0.val < 0xF5
            · simp only [c7, if_true] at hv ⊢
              rcases rest with _ | ⟨b1, _ | ⟨b2, _ | ⟨b3, rest3⟩⟩⟩
              · simp at hv
              · simp at hv
              · simp at hv
              · simp only at hv ⊢
                by_cases c8 : (inRange (if p0.val = 0xF0 then 0x90 else 0x80)
                    (if p0.val = 0xF4 then 0x8F else 0xBF) b1 && inRange 0x80 0xBF b2 &&
                    inRange 0x80 0xBF b3) = true
                · simp only [c8, if_true]
                  simp only [inRange, Bool.and_eq_true, decide_eq_true_eq] at c8
                  exact RuneShape.four p0 b1 b2 b3 rest3 (by omega) c7 c8.1.1.1 c8.1.1.2
                    c8.1.2.1 c8.1.2.2 c8.2.1 c8.2.2
                · simp [c8] at hv
            · simp [c7] at hv

theorem shape_decode {s : List Byte} {r n : Nat} (h : RuneShape s r n) (t : List Byte) :
    decodeRune (s.take n ++ t) = (r, n) := by
  cases h with
  | one p0 rest h => simp [decodeRune, h]
  | two p0 b1 rest h0 h1 h2 h3 =>
    have a1 : ¬ p0.val < 0x80 := by omega
    have a2 : ¬ p0.val < 0xC2 := by omega
    simp [decodeRune, a1, a2, h1, inRange, h2, h3]
  | three p0 b1 b2 rest h0 h1 h2 h3 h4 h5 =>
    have a1 : ¬ p0.val < 0x80 := by omega
    have a2 : ¬ p0.val < 0xC2 := by omega
    have a3 : ¬ p0.val < 0xE0 := by omega
    simp [decodeRune, a1, a2, a3, h1, inRange, h2, h3, h4, h5]
  | four p0 b1 b2 b3 rest h0 h1 h2 h3 h4 h5 h6 h7 =>
    have a1 : ¬ p0.val < 0x80 := by omega
    have a2 : ¬ p0.val < 0xC2 := by omega
    have a3 : ¬ p0.val < 0xE0 := by omega
    have a4 : ¬ p0.val < 0xF0 := by omega
    simp [decodeRune, a1, a2, a3, a4, h1, inRange, h2, h3, h4, h5, h6, h7]

theorem shape_encode {s : List Byte} {r n : Nat} (h : RuneShape s r n) :
    encodeRune r = s.take n := by
  cases h with
  | one p0 rest h =>
    unfold encodeRune
    have : p0.val ≤ 0x7F := by omega
    simp only [this, if_true, List.take_succ_cons, List.take_zero]
    congr 1
    exact byte_eq_ofNat _ _ (by omega)
  | two p0 b1 rest h0 h1 h2 h3 =>
    unfold encodeRune
    have hr1 : ¬ (p0.val % 32 * 64 + b1.val % 64 ≤ 0x7F) := by omega
    have hr2 : p0.val % 32 * 64 + b1.val % 64 ≤ 0x7FF := by omega
    rw [if_neg hr1, if_pos hr2]
    simp only [List.take_succ_cons, List.take_zero]
    congr 1
    · apply byte_eq_ofNat; omega
    · congr 1
      apply byte_eq_ofNat; omega
  | three p0 b1 b2 rest h0 h1 h2 h3 h4 h5 =>
    unfold encodeRune
    generalize hr : p0.val % 16 * 4096 + b1.val % 64 * 64 + b2.val % 64 = r
    have hb1 : 0x80 ≤ b1.val ∧ b1.val ≤ 0xBF := by split at h2 <;> split at h3 <;> omega
    have hlo : 0x800 ≤ r := by split at h2 <;> omega
    have hsur : ¬ (0xD800 ≤ r ∧ r ≤ 0xDFFF) := by split at h3 <;> omega
    have hhi : r ≤ 0xFFFF := by omega
    have hr1 : ¬ (r ≤ 0x7F) := by omega
    have hr2 : ¬ (r ≤ 0x7FF) := by omega
    have hr3 : (decide (r > 0x10FFFF) || (decide (0xD800 ≤ r) && decide (r ≤ 0xDFFF))) = false := by
      simp only [Bool.or_eq_false_iff, decide_eq_false_iff_not, Bool.and_eq_false_imp,
        decide_eq_true_eq]
      omega
    rw [if_neg hr1, if_neg hr2]
    simp only [hr3, Bool.false_eq_true, if_false, hhi, if_true, List.take_succ_cons, List.take_zero]
    congr 1
    · apply byte_eq_ofNat; omega
    · congr 1
      · apply byte_eq_ofNat; omega
      · congr 1
        apply byte_eq_ofNat; omega
  | four p0 b1 b2 b3 rest h0 h1 h2 h3 h4 h5 h6 h7 =>
    unfold encodeRune
    generalize hr : p0.val % 8 * 262144 + b1.val % 64 * 4096 + b2.val % 64 * 64 + b3.val % 64 = r
    have hb1 : 0x80 ≤ b1.val ∧ b1.val ≤ 0xBF := by split at h2 <;> split at h3 <;> omega
    have hlo : 0x10000 ≤ r := by split at h2 <;> omega
    have hhi : r ≤ 0x10FFFF := by split at h3 <;> omega
    have hr1 : ¬ (r ≤ 0x7F) := by omega
    have hr2 : ¬ (r ≤ 0x7FF) := by omega
    have hr3 : (decide (r > 0x10FFFF) || (decide (0xD800 ≤ r) && decide (r ≤ 0xDFFF))) = false := by
      simp only [Bool.or_eq_false_iff, decide_eq_false_iff_not, Bool.and_eq_false_imp,
        decide_eq_true_eq]
      omega
    have hr4 : ¬ (r ≤ 0xFFFF) := by omega
    rw [if_neg hr1, if_neg hr2]
    simp only [hr3, Bool.false_eq_true, if_false, hr4, List.take_succ_cons, List.take_zero]
    congr 1
    · apply byte_eq_ofNat; omega
    · congr 1
      · apply byte_eq_ofNat; omega
      · congr 1
        · apply byte_eq_ofNat; omega
        · congr 1
          apply byte_eq_ofNat; omega

theorem shape_facts {s : List Byte} {r n : Nat} (h : RuneShape s r n) :
    1 ≤ n ∧ n ≤ 4 ∧ n ≤ s.length := by
  cases h <;> simp

theorem decodeRune_take4 (s : List Byte) : decodeRune (s.take 4) = decodeRune s := by
  match s with
  | [] => rfl
  | [_] => rfl
  | [_, _] => rfl
  | [_, _, _] => rfl
  | a :: b :: c :: d :: rest =>
    simp only [List.take_succ_cons, List.take_zero]
    unfold decodeRune
    rfl

theorem hexVal_hexDigit (n : Nat) (h : n < 16) : hexVal (hexDigit n) = some n := by
  interval_cases n <;> rfl

theorem prepend_some (out : GoString) (a : GoString) (b : ByteSlice) :
    prepend out (some (a, b)) = some (out ++ a, b) := rfl

/-- One ASCII byte of the source: what the decoder does with what the encoder wrote. -/
theorem unquote_ascii_step (b : Byte) (hb : b.val < 0x80) (X : ByteSlice) (f : Nat) :
    unquoteAux (f + 1) ((if htmlSafe b then [b] else escapeByte b) ++ X) =
      prepend [b] (unquoteAux f X) := by
  by_cases hs : htmlSafe b = true
  · simp only [hs, if_true, List.singleton_append]
    simp only [htmlSafe, Bool.and_eq_true, decide_eq_true_eq, Bool.not_eq_true',
      Bool.or_eq_false_iff, decide_eq_false_iff_not] at hs
    obtain ⟨⟨h1, h2⟩, ⟨⟨⟨h3, h4⟩, h5⟩, h6⟩, h7⟩ := hs
    have c2 : ¬ b.val < 0x20 := by omega
    simp [unquoteAux, h3, h7, c2, hb]
  · simp only [hs, Bool.false_eq_true, if_false]
    unfold escapeByte
    by_cases e1 : (b.val = 0x5C ∨ b.val = 0x22)
    · have e1' : (decide (b.val = 0x5C) || decide (b.val = 0x22)) = true := by simpa using e1
      simp only [e1', if_true]
      rcases e1 with e | e
      · have : b = 0x5C := Fin.ext e
        subst this
        rfl
      · have : b = 0x22 := Fin.ext e
        subst this
        rfl
    · have e1' : (decide (b.val = 0x5C) || decide (b.val = 0x22)) = false := by simpa using e1
      simp only [e1', Bool.false_eq_true, if_false]
      by_cases e2 : b.val = 0x08
      · have : b = 0x08 := Fin.ext e2
        subst this; rfl
      · by_cases e3 : b.val = 0x0C
        · have : b = 0x0C := Fin.ext e3
          subst this; rfl
        · by_cases e4 : b.val = 0x0A
          · have : b = 0x0A := Fin.ext e4
            subst this; rfl
          · by_cases e5 : b.val = 0x0D
            · have : b = 0x0D := Fin.ext e5
              subst this; rfl
            · by_cases e6 : b.val = 0x09
              · have : b = 0x09 := Fin.ext e6
                subst this; rfl
              · simp only [e2, e3, e4, e5, e6, if_false]
                have h1 := hexVal_hexDigit (b.val / 16) (by omega)
                have h2 := hexVal_hexDigit (b.val % 16) (by omega)
                have h0 : hexVal (0x30 : Byte) = some 0 := rfl
                have hr : b.val / 16 * 16 + b.val % 16 = b.val := by omega
                have hsur : ¬ (0xD800 ≤ b.val) := by omega
                have henc : encodeRune b.val = [b] := by
                  have : b.val ≤ 0x7F := by omega
                  simp only [encodeRune, this, if_true]
                  congr 1
                  exact byte_eq_ofNat _ _ (by omega)
                simp [unquoteAux, hex4, h0, h1, h2, hr, hsur, henc, Fin.coe_ofNat_eq_mod]

/-- A byte of 0x80 and above at the head: the decoder takes the rune branch. -/
theorem unquote_rune_step (c : Byte) (rest : ByteSlice) (hc : ¬ c.val < 0x80) (f : Nat) :
    unquoteAux (f + 1) (c :: rest) =
      prepend (encodeRune (decodeRune (c :: rest)).1)
        (unquoteAux f ((c :: rest).drop (decodeRune (c :: rest)).2)) := by
  have c1 : ¬ c.val = 0x22 := by omega
  have c2 : ¬ c.val = 0x5C := by omega
  have c3 : ¬ c.val < 0x20 := by omega
  simp [unquoteAux, c1, c2, c3, hc]

/-- The escape of U+2028 or U+2029. -/
theorem unquote_u202x (r : Nat) (hr : r = 0x2028 ∨ r = 0x2029) (X : ByteSlice) (f : Nat) :
    unquoteAux (f + 1) ([0x5C, 0x75, 0x32, 0x30, 0x32, hexDigit (r % 16)] ++ X) =
      prepend (encodeRune r) (unquoteAux f X) := by
  rcases hr with h | h <;> subst h <;> rfl

theorem appendStringAux_nil (k : Nat) : appendStringAux k [] = [] := by
  cases k <;> rfl

theorem validUTF8Aux_cons {k : Nat} {b : Byte} {rest : List Byte}
    (h : validUTF8Aux (k + 1) (b :: rest) = true) :
    ¬ ((decodeRune (b :: rest)).1 = RuneError ∧ (decodeRune (b :: rest)).2 = 1) ∧
      validUTF8Aux k ((b :: rest).drop (decodeRune (b :: rest)).2) = true := by
  simp only [validUTF8Aux, List.isEmpty_cons, Bool.false_eq_true, if_false] at h
  by_cases hv : ((decodeRune (b :: rest)).1 = RuneError ∧ (decodeRune (b :: rest)).2 = 1)
  · simp [hv] at h
  · refine ⟨hv, ?_⟩
    have : (decide ((decodeRune (b :: rest)).1 = RuneError) &&
        decide ((decodeRune (b :: rest)).2 = 1)) = false := by
      simpa using hv
    simpa [this] using h

/-- The decoder reads back what the encoder wrote for a valid UTF-8 string. -/
theorem unquote_appendString (k : Nat) : ∀ (s : GoString), s.length ≤ k →
    validUTF8Aux k s = true → ∀ (rest : ByteSlice) (f : Nat),
    (appendStringAux k s).length + 1 ≤ f →
    unquoteAux f (appendStringAux k s ++ 0x22 :: rest) = some (s, rest) := by
  induction k with
  | zero =>
    intro s hl _ rest f hf
    have : s = [] := List.length_eq_zero.mp (Nat.le_zero.mp hl)
    subst this
    obtain ⟨f', rfl⟩ : ∃ f', f = f' + 1 := ⟨f - 1, by omega⟩
    rfl
  | succ k ih =>
    intro s hl hv rest f hf
    obtain ⟨f', rfl⟩ : ∃ f', f = f' + 1 := ⟨f - 1, by omega⟩
    cases s with
    | nil => rfl
    | cons b rest' =>
      by_cases hb : b.val < 0x80
      · have henc : appendStringAux (k + 1) (b :: rest') =
            (if htmlSafe b then [b] else escapeByte b) ++ appendStringAux k rest' := by
          simp [appendStringAux, hb]
        have hval : validUTF8Aux k rest' = true := by
          have := (validUTF8Aux_cons hv).2
          simpa [decodeRune, hb] using this
        have hchunk : 1 ≤ (if htmlSafe b then [b] else escapeByte b).length := by
          unfold escapeByte
          split
          · simp
          · split_ifs <;> simp
        rw [henc] at hf ⊢
        rw [List.append_assoc, unquote_ascii_step b hb]
        rw [ih rest' (by simpa using hl) hval rest f' (by simp at hf; omega)]
        rfl
      · obtain ⟨hne, hval⟩ := validUTF8Aux_cons hv
        have hshape := decodeRune_shape (b :: rest') (by simp) hne
        obtain ⟨n1, n4, nl⟩ := shape_facts hshape
        generalize hr : (decodeRune (b :: rest')).1 = r at *
        generalize hn : (decodeRune (b :: rest')).2 = n at *
        have hd : decodeRune ((b :: rest').take 4) = (r, n) := by
          rw [decodeRune_take4]; rw [← hr, ← hn]
        have herr : (decide (r = RuneError) && decide (n = 1)) = false := by simpa using hne
        have hencr := shape_encode hshape
        have hih := ih ((b :: rest').drop n) (by simp at hl ⊢; omega) hval rest f'
        have htd : (b :: rest').take n ++ (b :: rest').drop n = b :: rest' := List.take_append_drop _ _
        by_cases hu : r = 0x2028 ∨ r = 0x2029
        · have hu' : (decide (r = 0x2028) || decide (r = 0x2029)) = true := by simpa using hu
          have henc : appendStringAux (k + 1) (b :: rest') =
              [0x5C, 0x75, 0x32, 0x30, 0x32, hexDigit (r % 16)] ++
                appendStringAux k ((b :: rest').drop n) := by
            rw [appendStringAux]
            simp only [hb, if_false, hd, herr, Bool.false_eq_true, hu', if_true]
          rw [henc] at hf ⊢
          rw [List.append_assoc, unquote_u202x r hu]
          rw [hih (by simp at hf; omega), hencr, prepend_some, htd]
        · have hu' : (decide (r = 0x2028) || decide (r = 0x2029)) = false := by simpa using hu
          have henc : appendStringAux (k + 1) (b :: rest') =
              (b :: rest').take n ++ appendStringAux k ((b :: rest').drop n) := by
            rw [appendStringAux]
            simp only [hb, if_false, hd, herr, Bool.false_eq_true, hu']
          rw [henc] at hf ⊢
          rw [List.append_assoc]
          have hdec := shape_decode hshape
            (appendStringAux k ((b :: rest').drop n) ++ 0x22 :: rest)
          obtain ⟨n', rfl⟩ : ∃ n', n = n' + 1 := ⟨n - 1, by omega⟩
          have htake : (b :: rest').take (n' + 1) = b :: rest'.take n' := rfl
          rw [htake] at hdec hencr hf ⊢
          rw [List.cons_append] at hdec ⊢
          rw [unquote_rune_step b _ hb, hdec]
          simp only
          have hdrop : (b :: (rest'.take n' ++
              (appendStringAux k ((b :: rest').drop (n' + 1)) ++ 0x22 :: rest))).drop (n' + 1) =
              appendStringAux k ((b :: rest').drop (n' + 1)) ++ 0x22 :: rest := by
            rw [List.drop_succ_cons]
            have : (rest'.take n').length = n' := by
              simp at nl ⊢; omega
            rw [List.drop_append_eq_append_drop, this]
            simp
          have hf2 : (appendStringAux k ((b :: rest').drop (n' + 1))).length + 1 ≤ f' := by
            simp only [List.length_append, List.length_cons] at hf
            omega
          rw [hdrop, hih hf2, hencr, prepend_some]
          rw [← htake, htd]

/-- Go `parseString` reads back the literal that `appendString` wrote. -/
theorem parseString_appendString (s : GoString) (hv : validUTF8 s = true) (rest : ByteSlice) :
    parseString (appendString s ++ rest) = .ok (s, rest) := by
  have h := unquote_appendString s.length s (Nat.le_refl _) hv rest
    ((appendStringAux s.length s ++ 0x22 :: rest).length + 1) (by simp)
  have hform : appendString s ++ rest = 0x22 :: (appendStringAux s.length s ++ 0x22 :: rest) := by
    simp [appendString]
  rw [hform]
  simp only [parseString]
  have : ((0x22 : Byte).val = 0x22) := rfl
  simp only [this, if_true, h]

theorem unquote_plain (s : ByteSlice) (hp : s.all plainByte = true) (rest : ByteSlice) (f : Nat)
    (hf : s.length + 1 ≤ f) : unquoteAux f (s ++ 0x22 :: rest) = some (s, rest) := by
  induction s generalizing f with
  | nil =>
    obtain ⟨f', rfl⟩ : ∃ f', f = f' + 1 := ⟨f - 1, by omega⟩
    rfl
  | cons b s ih =>
    obtain ⟨f', rfl⟩ : ∃ f', f = f' + 1 := ⟨f - 1, by omega⟩
    simp only [List.all_cons, Bool.and_eq_true] at hp
    obtain ⟨hb, hs⟩ := hp
    simp only [plainByte, Bool.and_eq_true, decide_eq_true_eq, Bool.not_eq_true',
      decide_eq_false_iff_not] at hb
    obtain ⟨⟨⟨h1, h2⟩, h3⟩, h4⟩ := hb
    have c3 : ¬ b.val < 0x20 := by omega
    have hrec := ih hs f' (by simp at hf; omega)
    simp [unquoteAux, h3, h4, c3, h2, hrec, prepend]

theorem parseString_plain (s : ByteSlice) (hp : s.all plainByte = true) (rest : ByteSlice) :
    parseString (0x22 :: (s ++ 0x22 :: rest)) = .ok (s, rest) := by
  have h := unquote_plain s hp rest ((s ++ 0x22 :: rest).length + 1) (by simp)
  simp only [parseString]
  have : ((0x22 : Byte).val = 0x22) := rfl
  simp only [this, if_true, h]

theorem b64Val_b64Char (n : Nat) (h : n < 64) : b64Val (b64Char n) = some n := by
  interval_cases n <;> rfl

theorem b64Char_val_ne_pad (n : Nat) (h : n < 64) : ¬ (b64Char n).val = 0x3D := by
  interval_cases n <;> decide

theorem b64Char_plain (n : Nat) (h : n < 64) :
    plainByte (b64Char n) = true ∧ ¬ (b64Char n).val = 0x0A ∧ ¬ (b64Char n).val = 0x0D := by
  interval_cases n <;> decide

theorem pad_val : (0x3D : Byte).val = 0x3D := rfl

theorem b64Char_text (n : Nat) (h : n < 64) : b64Text (b64Char n) = true := by
  obtain ⟨h1, h2, h3⟩ := b64Char_plain n h
  simp [b64Text, h1, h2, h3]

theorem base64Encode_text : ∀ (d : ByteSlice), (base64Encode d).all b64Text = true
  | [] => rfl
  | [a] => by
    simp only [base64Encode, List.all_cons, List.all_nil, Bool.and_true, Bool.and_eq_true]
    exact ⟨b64Char_text _ (by omega), b64Char_text _ (by omega), by decide, by decide⟩
  | [a, b] => by
    simp only [base64Encode, List.all_cons, List.all_nil, Bool.and_true, Bool.and_eq_true]
    exact ⟨b64Char_text _ (by omega), b64Char_text _ (by omega), b64Char_text _ (by omega),
      by decide⟩
  | a :: b :: c :: rest => by
    have ih := base64Encode_text rest
    simp only [base64Encode, List.all_append, List.all_cons, List.all_nil, Bool.and_true,
      Bool.and_eq_true]
    exact ⟨⟨b64Char_text _ (by omega), b64Char_text _ (by omega), b64Char_text _ (by omega),
      b64Char_text _ (by omega)⟩, ih⟩

theorem base64DecodeAux_encode : ∀ (d : ByteSlice), base64DecodeAux (base64Encode d) = some d
  | [] => rfl
  | [a] => by
    simp only [base64Encode, base64DecodeAux, b64Val_b64Char (a.val / 4) (by omega),
      b64Val_b64Char (a.val % 4 * 16) (by omega), pad_val]
    simp
    exact byte_eq_ofNat _ _ (by omega)
  | [a, b] => by
    have n2 := b64Char_val_ne_pad (b.val % 16 * 4) (by omega)
    simp only [base64Encode, base64DecodeAux, b64Val_b64Char (a.val / 4) (by omega),
      b64Val_b64Char (a.val % 4 * 16 + b.val / 16) (by omega),
      b64Val_b64Char (b.val % 16 * 4) (by omega), pad_val, n2]
    simp
    exact ⟨byte_eq_ofNat _ _ (by omega), byte_eq_ofNat _ _ (by omega)⟩
  | a :: b :: c :: rest => by
    have ih := base64DecodeAux_encode rest
    have n2 := b64Char_val_ne_pad (b.val % 16 * 4 + c.val / 64) (by omega)
    have n3 := b64Char_val_ne_pad (c.val % 64) (by omega)
    simp only [base64Encode, List.cons_append, List.nil_append, base64DecodeAux,
      b64Val_b64Char (a.val / 4) (by omega),
      b64Val_b64Char (a.val % 4 * 16 + b.val / 16) (by omega),
      b64Val_b64Char (b.val % 16 * 4 + c.val / 64) (by omega),
      b64Val_b64Char (c.val % 64) (by omega), n2, n3]
    simp only [Bool.false_and, Bool.false_eq_true, if_false, decide_False]
    have hnil : ([] : ByteSlice).append (base64Encode rest) = base64Encode rest := rfl
    rw [hnil, ih]
    simp only [Option.some.injEq, List.cons.injEq, and_true]
    exact ⟨byte_eq_ofNat _ _ (by omega), byte_eq_ofNat _ _ (by omega),
      byte_eq_ofNat _ _ (by omega)⟩

theorem filter_text (s : ByteSlice) (h : s.all b64Text = true) :
    s.filter (fun c => !(decide (c.val = 0x0A) || decide (c.val = 0x0D))) = s := by
  rw [List.filter_eq_self]
  intro c hc
  have := List.all_eq_true.mp h c hc
  simp only [b64Text, Bool.and_eq_true] at this
  exact this.2

theorem base64Decode_encode (d : ByteSlice) : base64Decode (base64Encode d) = some d := by
  unfold base64Decode
  rw [filter_text _ (base64Encode_text d), base64DecodeAux_encode]

theorem base64Encode_plain (d : ByteSlice) : (base64Encode d).all plainByte = true := by
  have h := base64Encode_text d
  rw [List.all_eq_true] at h ⊢
  intro c hc
  have := h c hc
  simp only [b64Text, Bool.and_eq_true] at this
  exact this.1

theorem digitsToNat_append (xs : ByteSlice) (d : Byte) :
    digitsToNat (xs ++ [d]) = digitsToNat xs * 10 + (d.val - 0x30) := by
  simp [digitsToNat, List.foldl_append]

theorem natDigits_spec (fuel : Nat) : ∀ n, n < fuel →
    ∃ c t, natDigits fuel n = c :: t ∧ isDigit c = true ∧ t.all isDigit = true ∧
      digitsToNat (natDigits fuel n) = n ∧ (c.val = 0x30 → t = []) := by
  induction fuel with
  | zero => intro n h; omega
  | succ fuel ih =>
    intro n hn
    by_cases h10 : n < 10
    · refine ⟨Fin.ofNat (48 + n), [], ?_, ?_, rfl, ?_, fun _ => rfl⟩
      · simp [natDigits, h10]
      · simp only [isDigit, ofNat_val, Bool.and_eq_true, decide_eq_true_eq]; omega
      · simp only [natDigits, h10, if_true, digitsToNat, List.foldl_cons, List.foldl_nil, ofNat_val]
        omega
    · obtain ⟨c, t, h1, h2, h3, h4, h5⟩ := ih (n / 10) (by omega)
      have hnd : natDigits (fuel + 1) n = natDigits fuel (n / 10) ++ [Fin.ofNat (48 + n % 10)] := by
        simp [natDigits, h10]
      have hlast : isDigit (Fin.ofNat (48 + n % 10) : Byte) = true := by
        simp only [isDigit, ofNat_val, Bool.and_eq_true, decide_eq_true_eq]; omega
      refine ⟨c, t ++ [Fin.ofNat (48 + n % 10)], ?_, h2, ?_, ?_, ?_⟩
      · rw [hnd, h1]; rfl
      · simp [List.all_append, h3, hlast]
      · rw [hnd, digitsToNat_append, h4, ofNat_val]; omega
      · intro hc
        exfalso
        have ht := h5 hc
        rw [h1, ht] at h4
        simp only [digitsToNat, List.foldl_cons, List.foldl_nil, hc] at h4
        omega

theorem spanDigits_append (ds : ByteSlice) (hd : ds.all isDigit = true) (c : Byte)
    (hc : isDigit c = false) (rest : ByteSlice) :
    spanDigits (ds ++ c :: rest) = (ds, c :: rest) := by
  induction ds with
  | nil => simp [spanDigits, hc]
  | cons d ds ih =>
    simp only [List.all_cons, Bool.and_eq_true] at hd
    simp [spanDigits, hd.1, ih hd.2]

theorem comma_facts : isDigit (0x2C : Byte) = false ∧ (0x2C : Byte).val = 0x2C := ⟨rfl, rfl⟩

/-- The scanner reads back a decimal literal that is followed by a comma. -/
theorem scanNumber_digits (c : Byte) (t : ByteSlice) (hc : isDigit c = true)
    (ht : t.all isDigit = true) (h0 : c.val = 0x30 → t = []) (rest : ByteSlice) :
    scanNumber (c :: t ++ 0x2C :: rest) = some (⟨false, c :: t, true⟩, 0x2C :: rest) ∧
    scanNumber (0x2D :: (c :: t ++ 0x2C :: rest)) = some (⟨true, c :: t, true⟩, 0x2C :: rest) := by
  have hcv : 0x30 ≤ c.val ∧ c.val ≤ 0x39 := by
    simpa [isDigit] using hc
  have hneg : ¬ c.val = 0x2D := by omega
  have hint : scanIntPart (c :: t ++ 0x2C :: rest) = some (c :: t, 0x2C :: rest) := by
    by_cases hz : c.val = 0x30
    · have := h0 hz
      subst this
      simp [scanIntPart, hz]
    · simp [scanIntPart, hz, hc, spanDigits_append t ht 0x2C rfl rest]
  have hfrac : scanFrac (0x2C :: rest) = some (false, 0x2C :: rest) := rfl
  have hexp : scanExp (0x2C :: rest) = some (false, 0x2C :: rest) := rfl
  constructor
  · simp only [scanNumber, List.cons_append, hneg, decide_False, Bool.false_eq_true, if_false]
    rw [← List.cons_append, hint]
    simp only [hfrac, hexp]
    rfl
  · have h2d : (0x2D : Byte).val = 0x2D := rfl
    simp only [scanNumber, h2d, decide_True, if_true, List.drop_succ_cons, List.drop_zero]
    rw [hint]
    simp only [hfrac, hexp]
    rfl

/-- Go `decodeStatus` reads back what `appendInt` wrote for an `int`. -/
theorem decodeStatus_appendInt (n : Int) (hlo : -(2 : Int) ^ 63 ≤ n) (hhi : n < (2 : Int) ^ 63)
    (cur : Int) (rest : ByteSlice) :
    decodeStatus cur (appendInt n ++ 0x2C :: rest) = .ok (n, 0x2C :: rest) := by
  obtain ⟨c, t, h1, h2, h3, h4, h5⟩ := natDigits_spec (n.natAbs + 1) n.natAbs (by omega)
  obtain ⟨s1, s2⟩ := scanNumber_digits c t h2 h3 h5 rest
  have hcv : 0x30 ≤ c.val ∧ c.val ≤ 0x39 := by
    simpa [isDigit] using h2
  rw [h1] at h4
  by_cases hn : n < 0
  · have happ : appendInt n ++ 0x2C :: rest = 0x2D :: (c :: t ++ 0x2C :: rest) := by
      simp [appendInt, hn, h1]
    rw [happ]
    have h2d : ¬ (0x2D : Byte).val = 0x6E := by decide
    simp only [decodeStatus, h2d, if_false, s2, h4]
    have hv : (-(n.natAbs : Int)) = n := by omega
    simp only [if_true, hv]
    simp only [Bool.true_and, Bool.and_eq_true, decide_eq_true_eq, ite_eq_left_iff, not_and,
      reduceCtorEq, imp_false, not_not]
    norm_num at hlo hhi ⊢
    exact ⟨hlo, hhi⟩
  · have happ : appendInt n ++ 0x2C :: rest = c :: t ++ 0x2C :: rest := by
      simp [appendInt, hn, h1]
    rw [happ]
    have hcn : ¬ c.val = 0x6E := by omega
    rw [List.cons_append]
    simp only [decodeStatus, hcn, if_false]
    rw [← List.cons_append, s1]
    have hv : ((n.natAbs : Int)) = n := by omega
    simp only [h4, Bool.false_eq_true, if_false, hv]
    simp only [Bool.true_and, Bool.and_eq_true, decide_eq_true_eq, ite_eq_left_iff, not_and,
      reduceCtorEq, imp_false, not_not]
    norm_num at hlo hhi ⊢
    exact ⟨hlo, hhi⟩

theorem skipSpace_cons (c : Byte) (r : ByteSlice) (h : isSpace c = false) :
    skipSpace (c :: r) = c :: r := by
  simp [skipSpace, h]

theorem appendString_cons (s : GoString) (X : ByteSlice) :
    appendString s ++ X = 0x22 :: (appendStringAux s.length s ++ 0x22 :: X) := by
  simp [appendString]

theorem appendString_length (s : GoString) : 2 ≤ (appendString s).length := by
  simp [appendString]

theorem jsonNull_cons (X : ByteSlice) : jsonNull ++ X = 0x6E :: (ascii "ull" ++ X) := rfl

theorem expectLit_append (l X : ByteSlice) : expectLit l (l ++ X) = some X := by
  induction l with
  | nil => cases X <;> rfl
  | cons a l ih => simp [expectLit, ih]

theorem afterNull_ull {α : Type} (a : α) (X : ByteSlice) :
    afterNull a (ascii "ull" ++ X) = .ok (a, X) := by
  simp [afterNull, expectLit_append]

theorem decodeStringElem_string (v : GoString) (hv : validUTF8 v = true) (X : ByteSlice) :
    decodeStringElem (appendString v ++ X) = .ok (v, X) := by
  have h := parseString_appendString v hv X
  rw [appendString_cons] at h ⊢
  simp only [decodeStringElem, Fin.coe_ofNat_eq_mod]
  simpa using h

theorem skipSpace_appendString (s : GoString) (X : ByteSlice) :
    skipSpace (appendString s ++ X) = appendString s ++ X := by
  rw [appendString_cons]
  exact skipSpace_cons 0x22 _ rfl

theorem joinComma_strings_cons (v : GoString) (vs : List GoString) (X : ByteSlice) :
    ∃ Y, joinComma ((v :: vs).map appendString) ++ X = 0x22 :: Y := by
  cases vs with
  | nil =>
    refine ⟨appendStringAux v.length v ++ 0x22 :: X, ?_⟩
    simp only [List.map_cons, List.map_nil, joinComma, appendString_cons]
  | cons u us =>
    refine ⟨appendStringAux v.length v ++
      0x22 :: ([0x2C] ++ (joinComma ((u :: us).map appendString) ++ X)), ?_⟩
    simp [joinComma, appendString]

theorem skipSpace_joinStrings (v : GoString) (vs : List GoString) (X : ByteSlice) :
    skipSpace (joinComma ((v :: vs).map appendString) ++ X) =
      joinComma ((v :: vs).map appendString) ++ X := by
  obtain ⟨Y, hY⟩ := joinComma_strings_cons v vs X
  rw [hY]
  exact skipSpace_cons 0x22 _ rfl

theorem decodeStringElems_join (vs : List GoString) (v : GoString)
    (hv : (v :: vs).all validUTF8 = true) (rest : ByteSlice) (fuel : Nat)
    (hf : (joinComma ((v :: vs).map appendString)).length ≤ fuel) :
    decodeStringElems fuel (joinComma ((v :: vs).map appendString) ++ 0x5D :: rest) =
      .ok (v :: vs, rest) := by
  induction vs generalizing v fuel with
  | nil =>
    simp only [List.map_cons, List.map_nil, joinComma] at hf ⊢
    have := appendString_length v
    obtain ⟨f', rfl⟩ : ∃ f', fuel = f' + 1 := ⟨fuel - 1, by omega⟩
    simp only [List.all_cons, List.all_nil, Bool.and_true] at hv
    simp only [decodeStringElems, decodeStringElem_string v hv]
    rw [skipSpace_cons 0x5D _ rfl]
    simp [Fin.coe_ofNat_eq_mod]
  | cons w vs ih =>
    simp only [List.map_cons, joinComma, List.length_append, List.length_cons,
      List.length_nil] at hf
    have := appendString_length v
    obtain ⟨f', rfl⟩ : ∃ f', fuel = f' + 1 := ⟨fuel - 1, by omega⟩
    simp only [List.all_cons, Bool.and_eq_true] at hv
    have hrec := ih w (by simp [hv.2.1, hv.2.2]) f'
      (by simp only [List.map_cons]; omega)
    have hq := skipSpace_joinStrings w vs (0x5D :: rest)
    simp only [List.map_cons, joinComma, List.append_assoc, List.singleton_append,
      List.cons_append] at hrec hq ⊢
    simp only [decodeStringElems, decodeStringElem_string v hv.1]
    rw [skipSpace_cons 0x2C _ rfl]
    simp [Fin.coe_ofNat_eq_mod, hq, hrec]

theorem decodeStrings_marshal (vs : HeaderValues) (hv : HeaderValues.valid vs = true)
    (Z : ByteSlice) : decodeStrings (marshalStrings vs ++ Z) = .ok (vs, Z) := by
  cases vs with
  | none =>
    simp only [marshalStrings, jsonNull_cons, decodeStrings, Fin.coe_ofNat_eq_mod]
    simp [afterNull_ull]
  | some l =>
    cases l with
    | nil =>
      simp only [marshalStrings, List.map_nil, joinComma]
      rfl
    | cons v vs =>
      simp only [HeaderValues.valid, Option.getD_some] at hv
      have h := decodeStringElems_join vs v hv Z
        ((joinComma ((v :: vs).map appendString) ++ 0x5D :: Z).length + 1) (by simp; omega)
      obtain ⟨Y, hY⟩ := joinComma_strings_cons v vs (0x5D :: Z)
      have hform : marshalStrings (some (v :: vs)) ++ Z =
          0x5B :: (joinComma ((v :: vs).map appendString) ++ 0x5D :: Z) := by
        simp [marshalStrings]
      rw [hform]
      simp only [decodeStrings, Fin.coe_ofNat_eq_mod]
      rw [hY] at h ⊢
      rw [skipSpace_cons 0x22 _ rfl]
      simp only [List.length_cons] at h
      simp [Fin.coe_ofNat_eq_mod, h]

theorem strLt_irrefl : ∀ (a : GoString), strLt a a = false
  | [] => rfl
  | x :: xs => by simp [strLt, strLt_irrefl xs]

theorem strLt_trans : ∀ (a b c : GoString), strLt a b = true → strLt b c = true →
    strLt a c = true
  | [], [], _, h, _ => by simp [strLt] at h
  | [], _ :: _, [], _, h => by simp [strLt] at h
  | [], _ :: _, _ :: _, _, _ => rfl
  | _ :: _, [], _, h, _ => by simp [strLt] at h
  | _ :: _, _ :: _, [], _, h => by simp [strLt] at h
  | x :: xs, y :: ys, z :: zs, h1, h2 => by
    simp only [strLt] at h1 h2 ⊢
    by_cases a1 : x.val < y.val
    · by_cases a2 : y.val < z.val
      · have : x.val < z.val := by omega
        simp [this]
      · simp only [a2, if_false] at h2
        by_cases a3 : z.val < y.val
        · simp [a3] at h2
        · have : x.val < z.val := by omega
          simp [this]
    · simp only [a1, if_false] at h1
      by_cases a4 : y.val < x.val
      · simp [a4] at h1
      · simp only [a4, if_false] at h1
        by_cases a2 : y.val < z.val
        · have : x.val < z.val := by omega
          simp [this]
        · simp only [a2, if_false] at h2
          by_cases a3 : z.val < y.val
          · simp [a3] at h2
          · simp only [a3, if_false] at h2
            have b1 : ¬ x.val < z.val := by omega
            have b2 : ¬ z.val < x.val := by omega
            simp only [b1, b2, if_false]
            exact strLt_trans xs ys zs h1 h2

theorem strLt_asymm (a b : GoString) (h : strLt a b = true) : strLt b a = false := by
  by_contra hc
  have h2 : strLt b a = true := by simpa using hc
  have := strLt_trans a b a h h2
  rw [strLt_irrefl] at this
  exact Bool.noConfusion this

theorem strLt_ne (a b : GoString) (h : strLt a b = true) : a ≠ b := by
  intro he
  subst he
  rw [strLt_irrefl] at h
  exact Bool.noConfusion h

/-- Storing a key above every key of the map appends the entry. -/
theorem store_above (acc : HeaderMap) (k : GoString) (v : HeaderValues)
    (h : ∀ e ∈ acc, strLt e.1 k = true) : acc.store k v = acc ++ [(k, v)] := by
  induction acc with
  | nil => rfl
  | cons e acc ih =>
    obtain ⟨k', v'⟩ := e
    have h1 : strLt k' k = true := h (k', v') (List.mem_cons_self _ _)
    have h2 : ¬ k = k' := fun he => strLt_ne _ _ h1 he.symm
    have h3 : strLt k k' = false := strLt_asymm _ _ h1
    simp only [HeaderMap.store, h2, if_false, h3, Bool.false_eq_true, List.cons_append]
    rw [ih (fun e he => h e (List.mem_cons_of_mem _ he))]

theorem wf_cons_lt (e : GoString × HeaderValues) (h : HeaderMap)
    (hw : HeaderMap.WF (e :: h) = true) :
    HeaderMap.WF h = true ∧ ∀ x ∈ h, strLt e.1 x.1 = true := by
  induction h generalizing e with
  | nil => exact ⟨rfl, fun _ hx => absurd hx (List.not_mem_nil _)⟩
  | cons f h ih =>
    simp only [HeaderMap.WF, Bool.and_eq_true] at hw
    obtain ⟨h1, h2⟩ := hw
    obtain ⟨h3, h4⟩ := ih f h2
    refine ⟨h2, fun x hx => ?_⟩
    rcases List.mem_cons.mp hx with rfl | hx
    · exact h1
    · exact strLt_trans _ _ _ h1 (h4 x hx)

/-- Storing the entries of a well-formed map in order rebuilds it. -/
theorem foldl_store (h acc : HeaderMap) (hacc : ∀ a ∈ acc, ∀ x ∈ h, strLt a.1 x.1 = true)
    (hw : HeaderMap.WF h = true) :
    h.foldl (fun a e => a.store e.1 e.2) acc = acc ++ h := by
  induction h generalizing acc with
  | nil => simp
  | cons e h ih =>
    obtain ⟨hw1, hw2⟩ := wf_cons_lt e h hw
    simp only [List.foldl_cons]
    rw [store_above acc e.1 e.2 (fun a ha => hacc a ha e (List.mem_cons_self _ _))]
    rw [ih (acc ++ [(e.1, e.2)]) ?_ hw1]
    · simp
    · intro a ha x hx
      rcases List.mem_append.mp ha with ha | ha
      · exact hacc a ha x (List.mem_cons_of_mem _ hx)
      · simp only [List.mem_singleton] at ha
        subst ha
        exact hw2 x hx

theorem marshalStrings_cons (vs : HeaderValues) (X : ByteSlice) :
    ∃ c Y, marshalStrings vs ++ X = c :: Y ∧ isSpace c = false := by
  cases vs with
  | none => exact ⟨0x6E, _, rfl, rfl⟩
  | some l => exact ⟨0x5B, _, rfl, rfl⟩

theorem skipSpace_marshalStrings (vs : HeaderValues) (X : ByteSlice) :
    skipSpace (marshalStrings vs ++ X) = marshalStrings vs ++ X := by
  obtain ⟨c, Y, h1, h2⟩ := marshalStrings_cons vs X
  rw [h1]
  exact skipSpace_cons c Y h2

theorem marshalEntry_length (e : GoString × HeaderValues) : 2 ≤ (marshalEntry e).length := by
  have := appendString_length e.1
  simp only [marshalEntry, List.length_append]
  omega

theorem joinEntries_cons (e : GoString × HeaderValues) (h : HeaderMap) (X : ByteSlice) :
    ∃ Y, joinComma ((e :: h).map marshalEntry) ++ X = 0x22 :: Y := by
  cases h with
  | nil =>
    refine ⟨appendStringAux e.1.length e.1 ++ 0x22 :: ([0x3A] ++ marshalStrings e.2 ++ X), ?_⟩
    simp [joinComma, marshalEntry, appendString]
  | cons f h =>
    refine ⟨appendStringAux e.1.length e.1 ++ 0x22 :: ([0x3A] ++ marshalStrings e.2 ++
      ([0x2C] ++ (joinComma ((f :: h).map marshalEntry) ++ X))), ?_⟩
    simp [joinComma, marshalEntry, appendString]

theorem decodeHeaderMembers_join (h : HeaderMap) (e : GoString × HeaderValues)
    (hv : HeaderMap.validStrings (e :: h) = true) (acc : HeaderMap) (rest : ByteSlice)
    (fuel : Nat) (hf : (joinComma ((e :: h).map marshalEntry)).length ≤ fuel) :
    decodeHeaderMembers fuel acc (joinComma ((e :: h).map marshalEntry) ++ 0x7D :: rest) =
      .ok ((e :: h).foldl (fun a x => a.store x.1 x.2) acc, rest) := by
  induction h generalizing e acc fuel with
  | nil =>
    simp only [List.map_cons, List.map_nil, joinComma] at hf ⊢
    have := marshalEntry_length e
    obtain ⟨f', rfl⟩ : ∃ f', fuel = f' + 1 := ⟨fuel - 1, by omega⟩
    simp only [HeaderMap.validStrings, List.all_cons, List.all_nil, Bool.and_true,
      Bool.and_eq_true] at hv
    simp only [decodeHeaderMembers, marshalEntry, List.append_assoc,
      parseString_appendString e.1 hv.1]
    rw [List.singleton_append, skipSpace_cons 0x3A _ rfl]
    simp only [Fin.coe_ofNat_eq_mod, Nat.reduceMod, if_true, skipSpace_marshalStrings,
      decodeStrings_marshal e.2 hv.2]
    rw [skipSpace_cons 0x7D _ rfl]
    simp [Fin.coe_ofNat_eq_mod]
  | cons g h ih =>
    simp only [List.map_cons, joinComma, List.length_append, List.length_cons,
      List.length_nil] at hf
    have := marshalEntry_length e
    obtain ⟨f', rfl⟩ : ∃ f', fuel = f' + 1 := ⟨fuel - 1, by omega⟩
    simp only [HeaderMap.validStrings, List.all_cons, Bool.and_eq_true] at hv
    have hrec := ih g (by
      simp only [HeaderMap.validStrings, List.all_cons, Bool.and_eq_true]
      exact ⟨hv.2.1, hv.2.2⟩) (acc.store e.1 e.2) f' (by simp only [List.map_cons]; omega)
    obtain ⟨Y, hY⟩ := joinEntries_cons g h (0x7D :: rest)
    simp only [List.map_cons] at hrec hY
    simp only [List.map_cons, joinComma, List.append_assoc, List.singleton_append,
      List.cons_append]
    generalize joinComma (marshalEntry g :: List.map marshalEntry h) ++ 0x7D :: rest = T
      at hrec hY ⊢
    subst hY
    simp only [decodeHeaderMembers, marshalEntry, List.append_assoc,
      parseString_appendString e.1 hv.1.1]
    rw [List.singleton_append, skipSpace_cons 0x3A _ rfl]
    simp only [Fin.coe_ofNat_eq_mod, Nat.reduceMod, if_true, skipSpace_marshalStrings,
      decodeStrings_marshal e.2 hv.1.2]
    rw [skipSpace_cons 0x2C _ rfl]
    simp only [Fin.coe_ofNat_eq_mod, List.nil_append]
    rw [skipSpace_cons 0x22 _ rfl]
    simp [hrec]

theorem decodeHeader_marshal (H : HttpHeader) (hw : HeaderMap.WF (H.getD []) = true)
    (hv : HeaderMap.validStrings (H.getD []) = true) (cur : HttpHeader)
    (hcur : cur.getD [] = []) (Z : ByteSlice) :
    decodeHeader cur (marshalHeader H ++ Z) = .ok (H, Z) := by
  cases H with
  | none =>
    simp only [marshalHeader, jsonNull_cons, decodeHeader, Fin.coe_ofNat_eq_mod]
    simp [afterNull_ull]
  | some h =>
    cases h with
    | nil =>
      simp only [marshalHeader, List.map_nil, joinComma, List.append_nil, List.singleton_append,
        List.cons_append, List.nil_append, decodeHeader, Fin.coe_ofNat_eq_mod]
      rw [skipSpace_cons 0x7D _ rfl]
      simp [Fin.coe_ofNat_eq_mod, hcur]
    | cons e h =>
      simp only [Option.getD_some] at hw hv
      obtain ⟨Y, hY⟩ := joinEntries_cons e h (0x7D :: Z)
      have hm := decodeHeaderMembers_join h e hv (cur.getD []) Z
        ((joinComma ((e :: h).map marshalEntry) ++ 0x7D :: Z).length + 1) (by simp; omega)
      have hfold := foldl_store (e :: h) [] (fun a ha => absurd ha (List.not_mem_nil _)) hw
      rw [hcur, hfold, List.nil_append] at hm
      have hform : marshalHeader (some (e :: h)) ++ Z =
          0x7B :: (joinComma ((e :: h).map marshalEntry) ++ 0x7D :: Z) := by
        simp [marshalHeader]
      rw [hform]
      simp only [decodeHeader, Fin.coe_ofNat_eq_mod]
      rw [hY] at hm ⊢
      rw [skipSpace_cons 0x22 _ rfl]
      simp only [List.length_cons] at hm
      simp [Fin.coe_ofNat_eq_mod, hm, hcur]

theorem decodeData_marshal (D : Option ByteSlice) (Z : ByteSlice) :
    decodeData (marshalBytes D ++ Z) = .ok (D, Z) := by
  cases D with
  | none =>
    simp only [marshalBytes, jsonNull_cons, decodeData, Fin.coe_ofNat_eq_mod]
    simp [afterNull_ull]
  | some d =>
    have hp := parseString_plain (base64Encode d) (base64Encode_plain d) Z
    have hform : marshalBytes (some d) ++ Z = 0x22 :: (base64Encode d ++ 0x22 :: Z) := by
      simp [marshalBytes]
    rw [hform]
    simp only [decodeData, Fin.coe_ofNat_eq_mod]
    simp [hp, base64Decode_encode]

theorem skipSpace_marshalBytes (D : Option ByteSlice) (X : ByteSlice) :
    skipSpace (marshalBytes D ++ X) = marshalBytes D ++ X := by
  cases D with
  | none => exact skipSpace_cons 0x6E _ rfl
  | some d => exact skipSpace_cons 0x22 _ rfl

theorem skipSpace_marshalHeader (H : HttpHeader) (X : ByteSlice) :
    skipSpace (marshalHeader H ++ X) = marshalHeader H ++ X := by
  cases H with
  | none => exact skipSpace_cons 0x6E _ rfl
  | some h => exact skipSpace_cons 0x7B _ rfl

theorem skipSpace_appendInt (n : Int) (X : ByteSlice) :
    skipSpace (appendInt n ++ X) = appendInt n ++ X := by
  obtain ⟨c, t, h1, h2, -, -, -⟩ := natDigits_spec (n.natAbs + 1) n.natAbs (by omega)
  have hcv : 0x30 ≤ c.val ∧ c.val ≤ 0x39 := by simpa [isDigit] using h2
  have hc : isSpace c = false := by
    simp only [isSpace, Bool.or_eq_false_iff, decide_eq_false_iff_not]
    omega
  unfold appendInt
  split
  · exact skipSpace_cons 0x2D _ rfl
  · rw [h1]
    exact skipSpace_cons c _ hc

/-- One member of the top-level object, followed by a comma or the closing
brace: the value is decoded into its field. -/
theorem decodeMembers_step (f : Nat) (m m1 : MemoryResponseWriter) (key : GoString)
    (value T : ByteSlice) (hk : validUTF8 key = true) (hval : skipSpace (value ++ T) = value ++ T)
    (hfield : decodeField m key (value ++ T) = .ok (m1, T)) :
    (∀ T', T = 0x2C :: 0x22 :: T' →
      decodeMembers (f + 1) m (appendString key ++ [0x3A] ++ value ++ T) =
        decodeMembers f m1 (0x22 :: T')) ∧
    (∀ T', T = 0x7D :: T' →
      decodeMembers (f + 1) m (appendString key ++ [0x3A] ++ value ++ T) = .ok (m1, T')) := by
  have hunfold : decodeMembers (f + 1) m (appendString key ++ [0x3A] ++ value ++ T) =
      (match skipSpace T with
        | [] => .error .rejected
        | d :: rest3 =>
          if d.val = 0x7D then .ok (m1, rest3)
          else if d.val = 0x2C then decodeMembers f m1 (skipSpace rest3)
          else .error .rejected) := by
    simp only [decodeMembers, List.append_assoc, parseString_appendString key hk]
    rw [List.singleton_append, skipSpace_cons 0x3A _ rfl]
    simp only [Fin.coe_ofNat_eq_mod, Nat.reduceMod, if_true, hval, hfield]
    try rfl
  constructor
  · intro T' hT
    rw [hunfold, hT, skipSpace_cons 0x2C _ rfl]
    simp only [Fin.coe_ofNat_eq_mod]
    rw [skipSpace_cons 0x22 _ rfl]
    simp
  · intro T' hT
    rw [hunfold, hT, skipSpace_cons 0x7D _ rfl]
    simp [Fin.coe_ofNat_eq_mod]

/-- The three members that Marshal writes, read back with any fuel of three
or more. -/
theorem decodeMembers_marshal (m m0 : MemoryResponseWriter)
    (hw : HeaderMap.WF (m.Headers.getD []) = true)
    (hv : HeaderMap.validStrings (m.Headers.getD []) = true)
    (hlo : -(2 : Int) ^ 63 ≤ m.Status) (hhi : m.Status < (2 : Int) ^ 63)
    (h0 : m0.Headers.getD [] = []) (f : Nat) :
    decodeMembers (f + 3) m0
      (appendString (ascii "data") ++ [0x3A] ++ marshalBytes m.Data ++
        (0x2C :: (appendString (ascii "status") ++ [0x3A] ++ appendInt m.Status ++
          (0x2C :: (appendString (ascii "header") ++ [0x3A] ++ marshalHeader m.Headers ++
            [0x7D]))))) =
      .ok ({ m0 with Data := m.Data, Status := m.Status, Headers := m.Headers }, []) := by
  have k1 : validUTF8 (ascii "data") = true := by decide
  have k2 : validUTF8 (ascii "status") = true := by decide
  have k3 : validUTF8 (ascii "header") = true := by decide
  have f1 : foldName (ascii "data") = ascii "DATA" := by decide
  have f2 : foldName (ascii "status") = ascii "STATUS" := by decide
  have f3 : foldName (ascii "header") = ascii "HEADER" := by decide
  have n2 : ¬ ascii "STATUS" = ascii "DATA" := by decide
  have n3 : ¬ ascii "HEADER" = ascii "DATA" := by decide
  have n4 : ¬ ascii "HEADER" = ascii "STATUS" := by decide
  have s3 := (decodeMembers_step f { m0 with Data := m.Data, Status := m.Status }
    { m0 with Data := m.Data, Status := m.Status, Headers := m.Headers }
    (ascii "header") (marshalHeader m.Headers) (0x7D :: []) k3
    (skipSpace_marshalHeader _ _)
    (by simp [decodeField, f3, n3, n4, decodeHeader_marshal m.Headers hw hv m0.Headers h0])).2
      [] rfl
  have e3 : appendString (ascii "header") ++ [0x3A] ++ marshalHeader m.Headers ++ [0x7D] =
      0x22 :: (appendStringAux (ascii "header").length (ascii "header") ++
        0x22 :: ([0x3A] ++ marshalHeader m.Headers ++ [0x7D])) := by
    simp [appendString]
  generalize hT3 : appendString (ascii "header") ++ [0x3A] ++ marshalHeader m.Headers ++ [0x7D]
    = T3 at s3 e3 ⊢
  have s2 := (decodeMembers_step (f + 1) { m0 with Data := m.Data }
    { m0 with Data := m.Data, Status := m.Status }
    (ascii "status") (appendInt m.Status) (0x2C :: T3) k2
    (skipSpace_appendInt _ _)
    (by simp [decodeField, f2, n2, decodeStatus_appendInt m.Status hlo hhi])).1
      _ (by rw [e3])
  rw [← e3, s3] at s2
  have e2 : appendString (ascii "status") ++ [0x3A] ++ appendInt m.Status ++ (0x2C :: T3) =
      0x22 :: (appendStringAux (ascii "status").length (ascii "status") ++
        0x22 :: ([0x3A] ++ appendInt m.Status ++ (0x2C :: T3))) := by
    simp [appendString]
  generalize hT2 : appendString (ascii "status") ++ [0x3A] ++ appendInt m.Status ++ (0x2C :: T3)
    = T2 at s2 e2 ⊢
  have s1 := (decodeMembers_step (f + 2) m0 { m0 with Data := m.Data }
    (ascii "data") (marshalBytes m.Data) (0x2C :: T2) k1
    (skipSpace_marshalBytes _ _)
    (by simp [decodeField, f1, decodeData_marshal])).1
      _ (by rw [e2])
  rw [← e2, s2] at s1
  exact s1

/-- Unmarshal reads back into a buffer with an empty header map what Marshal
wrote, when the map is well formed, its strings are valid UTF-8 and the status
is an `int`. -/
theorem unmarshal_marshal (m m0 : MemoryResponseWriter)
    (hw : HeaderMap.WF (m.Headers.getD []) = true)
    (hv : HeaderMap.validStrings (m.Headers.getD []) = true)
    (hlo : -(2 : Int) ^ 63 ≤ m.Status) (hhi : m.Status < (2 : Int) ^ 63)
    (h0 : m0.Headers.getD [] = []) :
    unmarshal (marshal m) m0 =
      .ok { m0 with Data := m.Data, Status := m.Status, Headers := m.Headers } := by
  have hbody : ∃ Y, appendString (ascii "data") ++ [0x3A] ++ marshalBytes m.Data ++
        (0x2C :: (appendString (ascii "status") ++ [0x3A] ++ appendInt m.Status ++
          (0x2C :: (appendString (ascii "header") ++ [0x3A] ++ marshalHeader m.Headers ++
            [0x7D])))) = 0x22 :: 0x64 :: Y := ⟨_, by
    simp only [appendString]
    rfl⟩
  obtain ⟨Y, hY⟩ := hbody
  have hm : marshal m = 0x7B :: 0x22 :: 0x64 :: Y := by
    rw [← hY]
    simp [marshal]
  have hdec := decodeMembers_marshal m m0 hw hv hlo hhi h0 Y.length
  rw [hY] at hdec
  rw [hm]
  unfold unmarshal
  rw [skipSpace_cons 0x7B _ rfl]
  simp only [Fin.coe_ofNat_eq_mod]
  rw [skipSpace_cons 0x22 _ rfl]
  simp only [Fin.coe_ofNat_eq_mod, List.length_cons]
  simp [hdec, atEnd, skipSpace]

theorem close_headers (m : MemoryResponseWriter) : m.Close.Headers = m.Headers := by
  unfold MemoryResponseWriter.Close
  split <;> rfl

theorem handle_returned {Req : Type} (readRequest : ByteSlice → Except GoError Req)
    (router : Router Req) (lid : GoString) (c : Conn) (ci : ReqMsg) (req : Req)
    (res : MemoryResponseWriter)
    (hread : c.readJSON = .ok ci) (hparse : readRequest ci.Data = .ok req)
    (hret : router req (diagBuffer ci.Id lid) = .returned res) :
    envelope router lid ci.Id req = some res.Close ∧
      (handle readRequest router lid c).dispatched = [req] ∧
      (handle readRequest router lid c).sent =
        [{ Id := ci.Id, Data := marshal res.Close, Err := [] }] ∧
      (handle readRequest router lid c).outcome =
        .returned (c.writeJSON { Id := ci.Id, Data := marshal res.Close, Err := [] }) := by
  refine ⟨?_, ?_, ?_, ?_⟩ <;>
    simp [envelope, handle, hread, hparse, diag_adds, ServeHTTP, hret,
      MemoryResponseWriter.JsonBytes]

theorem handle_panicked {Req : Type} (readRequest : ByteSlice → Except GoError Req)
    (router : Router Req) (lid : GoString) (c : Conn) (ci : ReqMsg) (req : Req)
    (res : MemoryResponseWriter)
    (hread : c.readJSON = .ok ci) (hparse : readRequest ci.Data = .ok req)
    (hp : router req (diagBuffer ci.Id lid) = .panicked res) :
    envelope router lid ci.Id req = none ∧
      (handle readRequest router lid c).dispatched = [req] ∧
      (handle readRequest router lid c).sent = [] ∧
      (handle readRequest router lid c).outcome = .panicked := by
  refine ⟨?_, ?_, ?_, ?_⟩ <;>
    simp [envelope, handle, hread, hparse, diag_adds, ServeHTTP, hp]

/-- Claim C1, amended.  For every inbound record that `handle` reads and whose data parses as an HTTP request: for every Router behaviour that returns, `handle` sends exactly one outbound record and its `Id` is the `Id` of the inbound record; for every Router behaviour that panics, whatever the handler did to the response writer before, `handle` sends no record and the call ends in the panic. -/
theorem handle_echoes_id {Req : Type} (readRequest : ByteSlice → Except GoError Req)
    (router : Router Req) (lid : GoString) (c : Conn) (ci : ReqMsg) (req : Req)
    (hread : c.readJSON = .ok ci) (hparse : readRequest ci.Data = .ok req) :
    (∀ res, router req (diagBuffer ci.Id lid) = .returned res →
      ∃ out, (handle readRequest router lid c).sent = [out] ∧ out.Id = ci.Id) ∧
    (∀ res, router req (diagBuffer ci.Id lid) = .panicked res →
      (handle readRequest router lid c).sent = [] ∧
      (handle readRequest router lid c).outcome = .panicked) := by
  constructor
  · intro res hret
    exact ⟨_, (handle_returned readRequest router lid c ci req res hread hparse hret).2.2.1, rfl⟩
  · intro res hp
    have h := handle_panicked readRequest router lid c ci req res hread hparse hp
    exact ⟨h.2.2.1, h.2.2.2⟩

/-- Claim C1, amended, at a concrete exchange: the record `r1` with the request `GET / HTTP/1.1`, `Host: example.com`, once with a Router that answers 404 and once with a Router that writes and then panics. -/
theorem handle_echoes_id_witness :
    sampleConn.readJSON = .ok { Id := ascii "r1", Data := sampleRequest, Err := [] } ∧
    sampleReadRequest sampleRequest = .ok () ∧
    (∃ out, (handle sampleReadRequest okRouter (ascii "ep-123") sampleConn).sent = [out] ∧
      out.Id = ascii "r1") ∧
    (handle sampleReadRequest panicRouter (ascii "ep-123") sampleConn).sent = [] ∧
    (handle sampleReadRequest panicRouter (ascii "ep-123") sampleConn).outcome = .panicked :=
  ⟨rfl, by decide,
    (handle_echoes_id sampleReadRequest okRouter (ascii "ep-123") sampleConn
      { Id := ascii "r1", Data := sampleRequest, Err := [] } () rfl (by decide)).1 _ rfl,
    (handle_echoes_id sampleReadRequest panicRouter (ascii "ep-123") sampleConn
      { Id := ascii "r1", Data := sampleRequest, Err := [] } () rfl (by decide)).2 _ rfl⟩

/-- Claim C1 as stated fails: with a Router whose handler panics, `handle` sends no record for the inbound record `r1`, although the record was read and its data parsed. -/
theorem handle_router_panic_sends_nothing :
    ¬ ∀ (Req : Type) (readRequest : ByteSlice → Except GoError Req) (router : Router Req)
        (lid : GoString) (c : Conn) (ci : ReqMsg) (req : Req),
        c.readJSON = .ok ci → readRequest ci.Data = .ok req →
        ∃ out, (handle readRequest router lid c).sent = [out] ∧ out.Id = ci.Id := by
  intro h
  obtain ⟨out, hs, -⟩ := h Unit sampleReadRequest panicRouter (ascii "ep-123") sampleConn
    { Id := ascii "r1", Data := sampleRequest, Err := [] } () rfl (by decide)
  have : (handle sampleReadRequest panicRouter (ascii "ep-123") sampleConn).sent = [] := by decide
  rw [this] at hs
  exact List.noConfusion hs

theorem mem_index_Add (h : HeaderMap) (k v K x : GoString)
    (hx : x ∈ (h.index K).getD []) : x ∈ ((h.Add k v).index K).getD [] := by
  unfold HeaderMap.Add
  by_cases hK : K = CanonicalMIMEHeaderKey k
  · subst hK
    simp [index_store_self, hx]
  · simpa [index_store_ne _ _ _ _ hK] using hx

theorem diagBuffer_values (id lid : GoString) :
    id ∈ HttpHeader.Values (diagBuffer id lid).Headers (ascii "X-Straw-Resid") ∧
    lid ∈ HttpHeader.Values (diagBuffer id lid).Headers (ascii "X-Straw-Epid") := by
  have h1 : CanonicalMIMEHeaderKey (ascii "X-Straw-Resid") = ascii "X-Straw-Resid" := by decide
  have h2 : CanonicalMIMEHeaderKey (ascii "X-Straw-Epid") = ascii "X-Straw-Epid" := by decide
  have hne : ascii "X-Straw-Resid" ≠ ascii "X-Straw-Epid" := by decide
  constructor
  · simp only [diagBuffer, HttpHeader.Values, h1]
    apply mem_index_Add
    simp [HeaderMap.Add, canon_resid, index_store_self]
  · simp only [diagBuffer, HttpHeader.Values, h2]
    simp [HeaderMap.Add, canon_epid, index_store_self]

theorem values_of_canon (h : HttpHeader) (key K : GoString) (hc : CanonicalMIMEHeaderKey key = K)
    (hK : CanonicalMIMEHeaderKey K = K) : HttpHeader.Values h key = HttpHeader.Values h K := by
  cases h <;> simp [HttpHeader.Values, hc, hK]

/-- Claim C2, amended.  For every inbound record with id `i` that parses, every session identifier `s` and every Router handler that, when it returns, has left in place the values it found under `X-STRAW-RESID` and `X-STRAW-EPID` (whatever else it did to the response writer): when the handler returns, `handle` sends one record, and every outbound record that `handle` sends has as its data the serialization of a buffer that has `i` among the values of `X-STRAW-RESID` and `s` among the values of `X-STRAW-EPID`; and when the header strings of that buffer are valid UTF-8 (its map well formed, its status a 64-bit `int`), `FromJsonBytes` reads the data into a fresh buffer with the same headers, so with `i` and `s` under the two names. -/
theorem diagnostic_headers_kept {Req : Type} (readRequest : ByteSlice → Except GoError Req)
    (router : Router Req) (lid : GoString) (c : Conn) (ci : ReqMsg) (req : Req)
    (hread : c.readJSON = .ok ci) (hparse : readRequest ci.Data = .ok req)
    (hkeep : ∀ res, router req (diagBuffer ci.Id lid) = .returned res →
      (∀ x ∈ HttpHeader.Values (diagBuffer ci.Id lid).Headers (ascii "X-STRAW-RESID"),
        x ∈ HttpHeader.Values res.Headers (ascii "X-STRAW-RESID")) ∧
      (∀ x ∈ HttpHeader.Values (diagBuffer ci.Id lid).Headers (ascii "X-STRAW-EPID"),
        x ∈ HttpHeader.Values res.Headers (ascii "X-STRAW-EPID"))) :
    (∀ res, router req (diagBuffer ci.Id lid) = .returned res →
      ∃ out, (handle readRequest router lid c).sent = [out]) ∧
    ∀ out ∈ (handle readRequest router lid c).sent,
      ∃ env, envelope router lid ci.Id req = some env ∧
        out = { Id := ci.Id, Data := marshal env, Err := [] } ∧
        ci.Id ∈ HttpHeader.Values env.Headers (ascii "X-STRAW-RESID") ∧
        lid ∈ HttpHeader.Values env.Headers (ascii "X-STRAW-EPID") ∧
        (HeaderMap.WF (env.Headers.getD []) = true →
          HeaderMap.validStrings (env.Headers.getD []) = true →
          (-(2 : Int) ^ 63 ≤ env.Status ∧ env.Status < (2 : Int) ^ 63) →
          ∃ dec, NewMemoryResponseWriter.FromJsonBytes out.Data = .ok dec ∧
            dec.Headers = env.Headers ∧
            ci.Id ∈ HttpHeader.Values dec.Headers (ascii "X-STRAW-RESID") ∧
            lid ∈ HttpHeader.Values dec.Headers (ascii "X-STRAW-EPID")) := by
  refine ⟨fun res hr =>
    ⟨_, (handle_returned readRequest router lid c ci req res hread hparse hr).2.2.1⟩, ?_⟩
  intro out hout
  have h1 : CanonicalMIMEHeaderKey (ascii "X-Straw-Resid") = ascii "X-Straw-Resid" := by decide
  have h2 : CanonicalMIMEHeaderKey (ascii "X-Straw-Epid") = ascii "X-Straw-Epid" := by decide
  cases hr : router req (diagBuffer ci.Id lid) with
  | panicked res =>
    rw [(handle_panicked readRequest router lid c ci req res hread hparse hr).2.2.1] at hout
    simp at hout
  | returned res =>
    obtain ⟨henv, -, hs, -⟩ := handle_returned readRequest router lid c ci req res hread hparse hr
    rw [hs, List.mem_singleton] at hout
    obtain ⟨k1, k2⟩ := hkeep res hr
    have m1 : ci.Id ∈ HttpHeader.Values res.Close.Headers (ascii "X-STRAW-RESID") := by
      rw [close_headers]
      apply k1
      rw [values_of_canon _ _ _ canon_resid h1]
      exact (diagBuffer_values ci.Id lid).1
    have m2 : lid ∈ HttpHeader.Values res.Close.Headers (ascii "X-STRAW-EPID") := by
      rw [close_headers]
      apply k2
      rw [values_of_canon _ _ _ canon_epid h2]
      exact (diagBuffer_values ci.Id lid).2
    refine ⟨res.Close, henv, hout, m1, m2, ?_⟩
    intro hw hv hint
    have hd := unmarshal_marshal res.Close NewMemoryResponseWriter hw hv hint.1 hint.2 rfl
    subst hout
    exact ⟨_, hd, rfl, m1, m2⟩

/-- Claim C2, amended, at a concrete exchange: the record `r1`, the session `ep-123` and a Router that sets `Content-Type`, answers 404 and writes a body; the outbound data is read back with `FromJsonBytes`. -/
theorem diagnostic_headers_kept_witness :
    ∃ out env dec, (handle sampleReadRequest okRouter (ascii "ep-123") sampleConn).sent = [out] ∧
      envelope okRouter (ascii "ep-123") (ascii "r1") () = some env ∧
      out = { Id := ascii "r1", Data := marshal env, Err := [] } ∧
      ascii "r1" ∈ HttpHeader.Values env.Headers (ascii "X-STRAW-RESID") ∧
      ascii "ep-123" ∈ HttpHeader.Values env.Headers (ascii "X-STRAW-EPID") ∧
      NewMemoryResponseWriter.FromJsonBytes out.Data = .ok dec ∧
      dec.Headers = env.Headers ∧
      ascii "r1" ∈ HttpHeader.Values dec.Headers (ascii "X-STRAW-RESID") ∧
      ascii "ep-123" ∈ HttpHeader.Values dec.Headers (ascii "X-STRAW-EPID") := by
  have hk := diagnostic_headers_kept sampleReadRequest okRouter (ascii "ep-123") sampleConn
    { Id := ascii "r1", Data := sampleRequest, Err := [] } () rfl (by decide)
    (by
      intro res hr
      cases hr
      decide)
  obtain ⟨out, hout⟩ := hk.1 _ rfl
  obtain ⟨env, henv, ho, m1, m2, hdec⟩ := hk.2 out (by rw [hout]; exact List.mem_singleton.mpr rfl)
  have he : envelope okRouter (ascii "ep-123") (ascii "r1") () =
      some { buf := ascii "no", Data := some (ascii "no"), Status := 404,
             Headers := some [(ascii "Content-Type", some [ascii "text/plain"]),
                              (ascii "X-Straw-Epid", some [ascii "ep-123"]),
                              (ascii "X-Straw-Resid", some [ascii "r1"])] } := by decide
  rw [he] at henv
  cases henv
  obtain ⟨dec, hd, hh, d1, d2⟩ := hdec (by decide) (by decide) (by decide)
  exact ⟨out, _, dec, hout, he, ho, m1, m2, hd, hh, d1, d2⟩

/-- Claim C2 as stated fails: a Router whose handler calls `Header().Del` on `X-STRAW-RESID` returns normally; `handle` then sends a record, the buffer serialized into its data has no value for that header, and neither has the buffer that `FromJsonBytes` reads from that data. -/
theorem handler_can_delete_diagnostic_header :
    ¬ ∀ (Req : Type) (readRequest : ByteSlice → Except GoError Req) (router : Router Req)
        (lid : GoString) (c : Conn) (ci : ReqMsg) (req : Req),
        c.readJSON = .ok ci → readRequest ci.Data = .ok req →
        ∀ out ∈ (handle readRequest router lid c).sent,
          (∃ env, envelope router lid ci.Id req = some env ∧
            out = { Id := ci.Id, Data := marshal env, Err := [] } ∧
            ci.Id ∈ HttpHeader.Values env.Headers (ascii "X-STRAW-RESID") ∧
            lid ∈ HttpHeader.Values env.Headers (ascii "X-STRAW-EPID")) ∨
          (∃ dec, NewMemoryResponseWriter.FromJsonBytes out.Data = .ok dec ∧
            ci.Id ∈ HttpHeader.Values dec.Headers (ascii "X-STRAW-RESID") ∧
            lid ∈ HttpHeader.Values dec.Headers (ascii "X-STRAW-EPID")) := by
  intro h
  have he : envelope delRouter (ascii "ep-123") (ascii "r1") () = some delEnvelope := by decide
  have hs : (handle sampleReadRequest delRouter (ascii "ep-123") sampleConn).sent =
      [{ Id := ascii "r1", Data := marshal delEnvelope, Err := [] }] := by decide
  rcases h Unit sampleReadRequest delRouter (ascii "ep-123") sampleConn
    { Id := ascii "r1", Data := sampleRequest, Err := [] } () rfl (by decide) _
    (by rw [hs]; exact List.mem_singleton.mpr rfl) with ⟨env, henv, -, hid, -⟩ | ⟨dec, hd, hid, -⟩
  · rw [he] at henv
    cases henv
    revert hid
    decide
  · have hu := unmarshal_marshal delEnvelope NewMemoryResponseWriter (by decide) (by decide)
      (by decide) (by decide) rfl
    simp only [MemoryResponseWriter.FromJsonBytes] at hd
    rw [hu] at hd
    cases hd
    revert hid
    decide

theorem relayStep_errCount_le (s : ActiveState) (o : Outcome) :
    s.errCount ≤ (relayStep s o).errCount := by
  unfold relayStep
  split
  · split <;> simp
  · simp

theorem watchdogStep_errCount (s : ActiveState) : (watchdogStep s).errCount = s.errCount := by
  unfold watchdogStep
  split
  · split
    · rfl
    · split <;> rfl
  · rfl

theorem step_errCount_le (s : ActiveState) (st : ActiveStep) :
    s.errCount ≤ (s.step st).errCount := by
  cases st with
  | relay o => exact relayStep_errCount_le s o
  | watchdogCheck => simp [ActiveState.step, watchdogStep_errCount]

theorem run_errCount_le (steps : List ActiveStep) (s : ActiveState) :
    s.errCount ≤ (s.run steps).errCount := by
  induction steps generalizing s with
  | nil => simp [ActiveState.run]
  | cons st steps ih =>
    have h1 := step_errCount_le s st
    have h2 := ih (s.step st)
    simp only [ActiveState.run, List.foldl_cons] at h2 ⊢
    omega

theorem run_append (s : ActiveState) (a b : List ActiveStep) :
    s.run (a ++ b) = (s.run a).run b := by
  simp [ActiveState.run, List.foldl_append]

/-- The invariant of a run from the initial state: the counter is the number
of failed exchanges so far at most, it is not negative, and the watchdog runs
as long as the connection reference is set. -/
theorem run_invariant (steps : List ActiveStep) (s : ActiveState) (n : Nat)
    (h0 : 0 ≤ s.errCount) (hn : s.errCount ≤ n) (hw : s.conn = true → s.watchdog = true) :
    0 ≤ (s.run steps).errCount ∧ (s.run steps).errCount ≤ n + failures steps ∧
      ((s.run steps).conn = true → (s.run steps).watchdog = true) ∧
      ((s.run steps).conn = false → 10 < (s.run steps).errCount ∨ s.conn = false) := by
  induction steps generalizing s n with
  | nil => simp [ActiveState.run, failures, h0, hn]; exact ⟨hw, fun h => Or.inr h⟩
  | cons st steps ih =>
    have hrun : s.run (st :: steps) = (s.step st).run steps := by simp [ActiveState.run]
    rw [hrun]
    cases st with
    | watchdogCheck =>
      have hf : failures (ActiveStep.watchdogCheck :: steps) = failures steps := by
        simp [failures]
      rw [hf]
      have hstep : (s.step .watchdogCheck).errCount = s.errCount := watchdogStep_errCount s
      have hw2 : (s.step .watchdogCheck).conn = true → (s.step .watchdogCheck).watchdog = true := by
        simp only [ActiveState.step, watchdogStep]
        split
        · split
          · omega
          · split <;> simp_all
        · exact hw
      obtain ⟨a, b, c, d⟩ := ih (s.step .watchdogCheck) n (by omega) (by omega) hw2
      refine ⟨a, b, c, fun hc => ?_⟩
      rcases d hc with d | d
      · exact Or.inl d
      · have hle := run_errCount_le steps (s.step .watchdogCheck)
        by_cases hsc : s.conn = false
        · exact Or.inr hsc
        · left
          simp only [ActiveState.step, watchdogStep] at d hle
          split at d
          · split at d
            · omega
            · split at d
              · rename_i h10
                have : (10 : Int) < s.errCount := h10
                simp only [ActiveState.step, watchdogStep, *, if_true, if_false] at hle ⊢
                simp_all
                omega
              · simp_all
          · simp_all
    | relay o =>
      have hk : 0 ≤ (s.step (.relay o)).errCount ∧
          (s.step (.relay o)).errCount + failures steps ≤ n + failures (.relay o :: steps) ∧
          (s.step (.relay o)).conn = s.conn ∧ (s.step (.relay o)).watchdog = s.watchdog := by
        simp only [ActiveState.step, relayStep]
        split
        · cases o with
          | returned e =>
            cases e with
            | none => simp [failures]; omega
            | some e => simp [failures]; omega
          | panicked => simp [failures]; omega
        · cases o with
          | returned e =>
            cases e with
            | none => simp [failures]; omega
            | some e => simp [failures]; omega
          | panicked => simp [failures]; omega
      obtain ⟨k0, k1, k2, k3⟩ := hk
      obtain ⟨a, b, c, d⟩ := ih (s.step (.relay o)) ((s.step (.relay o)).errCount).toNat
        k0 (by omega) (by rw [k2, k3]; exact hw)
      refine ⟨a, by omega, c, fun hc => ?_⟩
      rcases d hc with d | d
      · exact Or.inl d
      · right; rw [← k2]; exact d

theorem run_failures (n : Nat) (e : GoError) (t : ActiveState)
    (hc : t.conn = true) (hu : t.unwound = false) :
    t.run (List.replicate n (.relay (.returned (some e)))) =
      { t with errCount := t.errCount + n } := by
  induction n generalizing t with
  | zero => simp [ActiveState.run]
  | succ n ih =>
    have h1 : t.step (.relay (.returned (some e))) = { t with errCount := t.errCount + 1 } := by
      simp [ActiveState.step, relayStep, hc, hu]
    simp only [List.replicate_succ, ActiveState.run, List.foldl_cons, h1]
    have h2 := ih { t with errCount := t.errCount + 1 } hc hu
    simp only [ActiveState.run] at h2
    rw [h2]
    simp only [Nat.cast_add, Nat.cast_one]
    congr 1
    omega

/-- Claim C8.  For every inbound record whose data does not parse as an HTTP request, `handle` returns the parse error, hands no request to the Router and no record to `c.WriteJSON`, and the iteration of the relay loop that made the call adds exactly one to `errCount`; an iteration whose call returns nil leaves `errCount` as it is, and over any run of the relay loop and the watchdog `errCount` does not decrease. -/
theorem decode_failure_counted {Req : Type} (readRequest : ByteSlice → Except GoError Req)
    (router : Router Req) (lid : GoString) (c : Conn) (ci : ReqMsg) (err : GoError)
    (s : ActiveState) (steps : List ActiveStep)
    (hread : c.readJSON = .ok ci) (hparse : readRequest ci.Data = .error err)
    (hc : s.conn = true) (hu : s.unwound = false) :
    (handle readRequest router lid c).outcome = .returned (some err) ∧
    (handle readRequest router lid c).dispatched = [] ∧
    (handle readRequest router lid c).sent = [] ∧
    (relayStep s (handle readRequest router lid c).outcome).errCount = s.errCount + 1 ∧
    (relayStep s (.returned none)).errCount = s.errCount ∧
    s.errCount ≤ (s.run steps).errCount := by
  have ho : (handle readRequest router lid c).outcome = .returned (some err) := by
    simp [handle, hread, hparse]
  refine ⟨ho, ?_, ?_, ?_, ?_, run_errCount_le steps s⟩
  · simp [handle, hread, hparse]
  · simp [handle, hread, hparse]
  · rw [ho]; simp [relayStep, hc, hu]
  · simp [relayStep, hc, hu]

/-- Claim C8 at a concrete exchange: a record with empty data, in the initial state of the connection. -/
theorem decode_failure_counted_witness :
    (handle sampleReadRequest okRouter (ascii "ep-123") badConn).outcome = .returned (some "EOF") ∧
    (handle sampleReadRequest okRouter (ascii "ep-123") badConn).dispatched = [] ∧
    (handle sampleReadRequest okRouter (ascii "ep-123") badConn).sent = [] ∧
    (relayStep ActiveState.init
      (handle sampleReadRequest okRouter (ascii "ep-123") badConn).outcome).errCount =
        ActiveState.init.errCount + 1 ∧
    (relayStep ActiveState.init (.returned none)).errCount = ActiveState.init.errCount ∧
    ActiveState.init.errCount ≤
      (ActiveState.init.run [.relay (.returned (some "EOF")), .watchdogCheck]).errCount :=
  decode_failure_counted sampleReadRequest okRouter (ascii "ep-123") badConn
    { Id := ascii "r2", Data := [], Err := [] } "EOF" ActiveState.init
    [.relay (.returned (some "EOF")), .watchdogCheck] rfl (by decide) rfl rfl

/-- Claim C9.  In the step model of one connection, a watchdog check of a running watchdog on an open connection closes the connection and clears its reference exactly when `errCount` exceeds 10; a run from the initial state with at most 10 failed relay iterations leaves the connection open; and from any reachable state in which the loop is running, 11 consecutive failed relay iterations followed by a watchdog check leave the reference cleared, after which no relay iteration runs. -/
theorem watchdog_threshold (s : ActiveState) (steps : List ActiveStep) (e : GoError) :
    (s.watchdog = true → s.conn = true →
      ((watchdogStep s).conn = false ↔ 10 < s.errCount)) ∧
    (failures steps ≤ 10 → (ActiveState.init.run steps).conn = true) ∧
    ((ActiveState.init.run steps).conn = true → (ActiveState.init.run steps).unwound = false →
      ((ActiveState.init.run steps).run
        (List.replicate 11 (.relay (.returned (some e))) ++ [.watchdogCheck])).conn = false ∧
      ∀ o, relayStep ((ActiveState.init.run steps).run
        (List.replicate 11 (.relay (.returned (some e))) ++ [.watchdogCheck])) o =
          (ActiveState.init.run steps).run
            (List.replicate 11 (.relay (.returned (some e))) ++ [.watchdogCheck])) := by
  obtain ⟨i0, i1, i2, i3⟩ := run_invariant steps ActiveState.init 0 (by decide) (by decide)
    (by decide)
  refine ⟨?_, ?_, ?_⟩
  · intro hw hc
    unfold watchdogStep
    simp only [hw, if_true]
    split
    · next h1 => simp [hc, h1]
    · split
      · next h2 => simp [h2]
      · next h2 => simp [hc, h2]
  · intro hf
    by_contra hcon
    have hcf : (ActiveState.init.run steps).conn = false := by simpa using hcon
    rcases i3 hcf with h | h
    · omega
    · exact absurd h (by decide)
  · intro hc hu
    have hw := i2 hc
    generalize ActiveState.init.run steps = t at *
    have hclosed : (t.run
        (List.replicate 11 (.relay (.returned (some e))) ++ [.watchdogCheck])).conn = false := by
      rw [run_append, run_failures 11 e t hc hu]
      have h1 : ¬ (t.errCount + (11 : Int) = -1) := by omega
      have h2 : 10 < t.errCount + (11 : Int) := by omega
      simp [ActiveState.run, ActiveState.step, watchdogStep, hw, h1, h2]
    refine ⟨hclosed, fun o => ?_⟩
    generalize t.run (List.replicate 11 (.relay (.returned (some e))) ++ [.watchdogCheck]) = q
      at hclosed ⊢
    simp [relayStep, hclosed]

/-- Claim C9 at concrete runs: a check at `errCount = 11`, a run of 10 failures and a check, and a run of 11 failures and a check. -/
theorem watchdog_threshold_witness :
    ((watchdogStep { errCount := 11, conn := true, watchdog := true, unwound := false }).conn = false
      ↔ (10 : Int) < 11) ∧
    (ActiveState.init.run (List.replicate 10 (.relay (.returned (some "EOF"))) ++
      [.watchdogCheck])).conn = true ∧
    ((ActiveState.init.run [.relay (.returned none)]).run
      (List.replicate 11 (.relay (.returned (some "EOF"))) ++ [.watchdogCheck])).conn = false :=
  ⟨(watchdog_threshold { errCount := 11, conn := true, watchdog := true, unwound := false }
      [] "EOF").1 rfl rfl,
   (watchdog_threshold ActiveState.init
      (List.replicate 10 (.relay (.returned (some "EOF"))) ++ [.watchdogCheck]) "EOF").2.1
      (by decide),
   ((watchdog_threshold ActiveState.init [.relay (.returned none)] "EOF").2.2
      (by decide) (by decide)).1⟩

theorem addAll_append (h : HeaderMap) (a b : List (GoString × GoString)) :
    addAll h (a ++ b) = addAll (addAll h a) b := by
  simp [addAll, List.foldl_append]

theorem index_Add (h : HeaderMap) (k v K : GoString) :
    ((h.Add k v).index K).getD [] =
      (h.index K).getD [] ++ (if CanonicalMIMEHeaderKey k = K then [v] else []) := by
  unfold HeaderMap.Add
  by_cases hK : CanonicalMIMEHeaderKey k = K
  · subst hK
    simp [index_store_self]
  · have : K ≠ CanonicalMIMEHeaderKey k := fun h => hK h.symm
    simp [index_store_ne _ _ _ _ this, hK]

theorem lookup_Add (h : HeaderMap) (k v K : GoString) :
    ((h.Add k v).lookup K).isSome =
      ((h.lookup K).isSome || decide (CanonicalMIMEHeaderKey k = K)) := by
  unfold HeaderMap.Add
  by_cases hK : CanonicalMIMEHeaderKey k = K
  · subst hK
    simp [lookup_store_self]
  · have : K ≠ CanonicalMIMEHeaderKey k := fun h => hK h.symm
    simp [lookup_store_ne _ _ _ _ this, hK]

theorem index_addAll (pairs : List (GoString × GoString)) (h : HeaderMap) (K : GoString) :
    ((addAll h pairs).index K).getD [] =
      (h.index K).getD [] ++
        (pairs.filter (fun p => decide (CanonicalMIMEHeaderKey p.1 = K))).map (fun p => p.2) := by
  induction pairs generalizing h with
  | nil => simp [addAll]
  | cons p pairs ih =>
    have := ih (h.Add p.1 p.2)
    simp only [addAll, List.foldl_cons] at this ⊢
    rw [this, index_Add]
    by_cases hK : CanonicalMIMEHeaderKey p.1 = K <;> simp [hK, List.filter]

theorem lookup_addAll (pairs : List (GoString × GoString)) (h : HeaderMap) (K : GoString) :
    ((addAll h pairs).lookup K).isSome = true ↔
      ((h.lookup K).isSome = true ∨ ∃ p ∈ pairs, CanonicalMIMEHeaderKey p.1 = K) := by
  induction pairs generalizing h with
  | nil => simp [addAll]
  | cons p pairs ih =>
    have := ih (h.Add p.1 p.2)
    simp only [addAll, List.foldl_cons] at this ⊢
    rw [this, lookup_Add]
    simp only [Bool.or_eq_true, decide_eq_true_eq, List.mem_cons, exists_eq_or_imp]
    tauto

theorem fwdValues_nothing (k : GoString) (vs : List GoString) (st : FwdRun) (h : HeaderMap)
    (hw : st.w.Headers = some h) :
    fwdValues .nothing k vs st =
      some { m := st.m,
             w := { st.w with Headers := some (addAll h (vs.map (fun vv => (k, vv)))) },
             calls := st.calls ++ vs.map (SinkCall.headerAdd k) } := by
  induction vs generalizing st h with
  | nil =>
    obtain ⟨m, w, calls⟩ := st
    simp only at hw
    simp [fwdValues, addAll, ← hw]
  | cons v vs ih =>
    have hstep : st.call .nothing (.headerAdd k v) =
        some { m := st.m, w := { st.w with Headers := some (h.Add k v) },
               calls := st.calls ++ [.headerAdd k v] } := by
      simp [FwdRun.call, MemoryResponseWriter.call, MemoryResponseWriter.Header, hw]
    simp only [fwdValues, hstep]
    rw [ih _ (h.Add k v) rfl]
    simp [addAll]

theorem fwdHeaders_nothing (order : List GoString) (st : FwdRun) (h : HeaderMap)
    (hw : st.w.Headers = some h) :
    fwdHeaders .nothing order st =
      some { m := st.m,
             w := { st.w with
                    Headers := some (addAll h (fwdPairs (st.m.Headers.getD []) order)) },
             calls := st.calls ++
               (fwdPairs (st.m.Headers.getD []) order).map (fun p => SinkCall.headerAdd p.1 p.2) } := by
  induction order generalizing st h with
  | nil =>
    obtain ⟨m, w, calls⟩ := st
    simp only at hw
    simp [fwdHeaders, fwdPairs, addAll, ← hw]
  | cons k rest ih =>
    simp only [fwdHeaders, fwdValues_nothing k _ st h hw]
    rw [ih _ _ rfl]
    simp [fwdPairs, addAll_append, List.map_append, Function.comp_def]

/-- The replay of `m` onto a sink that shares nothing with it. -/
theorem fwd_nothing (m w : MemoryResponseWriter) (h : HeaderMap) (order : List GoString)
    (hw : w.Headers = some h) :
    m.Fwd w .nothing order =
      some { m := m,
             w := { buf := w.buf ++ m.Data.getD [], Data := w.Data, Status := m.Status,
                    Headers := some (addAll h (fwdPairs (m.Headers.getD []) order)) },
             calls := (fwdPairs (m.Headers.getD []) order).map (fun p => SinkCall.headerAdd p.1 p.2)
               ++ [.writeHeader m.Status, .write (m.Data.getD [])] } := by
  simp only [MemoryResponseWriter.Fwd, FwdRun.start]
  rw [fwdHeaders_nothing order _ h hw]
  simp [FwdRun.call, MemoryResponseWriter.call, MemoryResponseWriter.Write,
    MemoryResponseWriter.WriteHeader]

theorem fwdPairs_calls (hm : HeaderMap) (order : List GoString) :
    (fwdPairs hm order).map (fun p => SinkCall.headerAdd p.1 p.2) =
      order.flatMap (fun k => ((hm.index k).getD []).map (SinkCall.headerAdd k)) := by
  simp [fwdPairs, List.map_flatMap, Function.comp_def]

theorem fwdPairs_filter (hm : HeaderMap) (order : List GoString) (K : GoString) :
    ((fwdPairs hm order).filter (fun p => decide (CanonicalMIMEHeaderKey p.1 = K))).map
        (fun p => p.2) =
      order.flatMap (fun k => if CanonicalMIMEHeaderKey k = K then (hm.index k).getD [] else []) := by
  induction order with
  | nil => simp [fwdPairs]
  | cons k rest ih =>
    simp only [fwdPairs, List.flatMap_cons, List.filter_append, List.map_append] at ih ⊢
    rw [ih]
    congr 1
    by_cases hk : CanonicalMIMEHeaderKey k = K
    · simp [hk, List.filter_map, Function.comp_def]
    · simp [hk, List.filter_map, Function.comp_def]

theorem fwdPairs_perm (hm : HeaderMap) {o1 o2 : List GoString} (h : o1.Perm o2) :
    (fwdPairs hm o1).Perm (fwdPairs hm o2) :=
  List.Perm.flatMap_right _ h

theorem lookup_none_of_not_mem (h : HeaderMap) (K : GoString) (hK : K ∉ h.map Prod.fst) :
    h.lookup K = none := by
  induction h with
  | nil => rfl
  | cons e rest ih =>
    obtain ⟨k, v⟩ := e
    simp only [List.map_cons, List.mem_cons, not_or] at hK
    simp [HeaderMap.lookup, hK.1, ih hK.2]

theorem wf_keys_nodup (h : HeaderMap) (hwf : HeaderMap.WF h = true) : (h.map Prod.fst).Nodup := by
  induction h with
  | nil => simp
  | cons e rest ih =>
    have hlt := wf_cons_lt e rest hwf
    rw [List.map_cons, List.nodup_cons]
    refine ⟨?_, ih hlt.1⟩
    intro hmem
    obtain ⟨x, hx, hxe⟩ := List.mem_map.mp hmem
    exact strLt_ne _ _ (hlt.2 x hx) hxe.symm

theorem flatMap_select (order : List GoString) (f : GoString → List GoString) (K : GoString)
    (hnd : order.Nodup) :
    order.flatMap (fun k => if k = K then f k else []) = if K ∈ order then f K else [] := by
  induction order with
  | nil => simp
  | cons k rest ih =>
    rw [List.nodup_cons] at hnd
    rw [List.flatMap_cons, ih hnd.2]
    by_cases hk : k = K
    · subst hk
      simp [hnd.1]
    · have : ¬ K = k := fun h => hk h.symm
      simp [hk, this]

/-- Claim C7, amended.  For a sink that shares nothing with the buffer `m` and whose header map is not nil, `Fwd` returns and leaves `m` as it is; the calls it makes on the sink are exactly one `Header().Add(k, vv)` for each value `vv` of each key `k` of `m.Headers`, key by key in the order of `range` and value by value in the order of the slice, then `WriteHeader(m.Status)`, then `Write(m.Data)`; afterwards the sink has the status of `m`, its former body followed by `m.Data`, and under each key its former values followed by the values that `m` holds under the keys with that canonical form.  Two replays onto fresh sinks, whatever the two orders of `range`, leave `m` as it is and give both sinks the status and the body of `m`, the same keys, and under each key the same values up to their order; when the keys of `m` are canonical, each sink holds under every key exactly the values that `m` holds. -/
theorem fwd_replay (m w : MemoryResponseWriter) (hsink : HeaderMap) (o1 o2 : List GoString)
    (hwf : HeaderMap.WF (m.Headers.getD []) = true)
    (hw : w.Headers = some hsink)
    (h1 : o1.Perm ((m.Headers.getD []).map Prod.fst))
    (h2 : o2.Perm ((m.Headers.getD []).map Prod.fst)) :
    (∃ st, m.Fwd w .nothing o1 = some st ∧
      st.m = m ∧
      st.calls =
        o1.flatMap (fun k => (((m.Headers.getD []).index k).getD []).map (SinkCall.headerAdd k)) ++
          [.writeHeader m.Status, .write (m.Data.getD [])] ∧
      st.w.Status = m.Status ∧
      st.w.Bytes.getD [] = w.Bytes.getD [] ++ m.Data.getD [] ∧
      ∀ K, ((st.w.Headers.getD []).index K).getD [] =
        (hsink.index K).getD [] ++
          o1.flatMap (fun k =>
            if CanonicalMIMEHeaderKey k = K then ((m.Headers.getD []).index k).getD [] else [])) ∧
    (∃ s1 s2, m.Fwd NewMemoryResponseWriter .nothing o1 = some s1 ∧
      m.Fwd NewMemoryResponseWriter .nothing o2 = some s2 ∧
      s1.m = m ∧ s2.m = m ∧
      s1.w.Status = m.Status ∧ s2.w.Status = m.Status ∧
      s1.w.Bytes.getD [] = m.Data.getD [] ∧ s2.w.Bytes.getD [] = m.Data.getD [] ∧
      (∀ K, ((s1.w.Headers.getD []).lookup K).isSome = ((s2.w.Headers.getD []).lookup K).isSome ∧
        (((s1.w.Headers.getD []).index K).getD []).Perm (((s2.w.Headers.getD []).index K).getD [])) ∧
      ((∀ k ∈ (m.Headers.getD []).map Prod.fst, CanonicalMIMEHeaderKey k = k) →
        ∀ K, ((s1.w.Headers.getD []).index K).getD [] = ((m.Headers.getD []).index K).getD [] ∧
          ((s2.w.Headers.getD []).index K).getD [] = ((m.Headers.getD []).index K).getD [])) := by
  have hcanon : ∀ (o : List GoString), o.Perm ((m.Headers.getD []).map Prod.fst) →
      (∀ k ∈ (m.Headers.getD []).map Prod.fst, CanonicalMIMEHeaderKey k = k) → ∀ K,
      o.flatMap (fun k =>
        if CanonicalMIMEHeaderKey k = K then ((m.Headers.getD []).index k).getD [] else []) =
      ((m.Headers.getD []).index K).getD [] := by
    intro o ho hc K
    have hnd : o.Nodup := ho.nodup_iff.mpr (wf_keys_nodup _ hwf)
    have hcongr : o.flatMap (fun k =>
        if CanonicalMIMEHeaderKey k = K then ((m.Headers.getD []).index k).getD [] else []) =
        o.flatMap (fun k => if k = K then ((m.Headers.getD []).index k).getD [] else []) := by
      apply List.flatMap_congr
      intro k hk
      rw [hc k (ho.mem_iff.mp hk)]
    rw [hcongr, flatMap_select o _ K hnd]
    by_cases hK : K ∈ o
    · simp [hK]
    · have hn : K ∉ (m.Headers.getD []).map Prod.fst := fun h => hK (ho.mem_iff.mpr h)
      simp [hK, HeaderMap.index, lookup_none_of_not_mem _ K hn]
  refine ⟨⟨_, fwd_nothing m w hsink o1 hw, rfl, ?_, rfl, ?_, ?_⟩,
    ⟨_, _, fwd_nothing m NewMemoryResponseWriter [] o1 rfl,
      fwd_nothing m NewMemoryResponseWriter [] o2 rfl, rfl, rfl, rfl, rfl, ?_, ?_, ?_, ?_⟩⟩
  · simp only [fwdPairs_calls]
  · simp [MemoryResponseWriter.Bytes, bufferBytes_getD]
  · intro K
    simp only [Option.getD_some]
    rw [index_addAll, fwdPairs_filter]
  · simp [MemoryResponseWriter.Bytes, bufferBytes_getD, NewMemoryResponseWriter]
  · simp [MemoryResponseWriter.Bytes, bufferBytes_getD, NewMemoryResponseWriter]
  · intro K
    have hp : (fwdPairs (m.Headers.getD []) o1).Perm (fwdPairs (m.Headers.getD []) o2) :=
      fwdPairs_perm _ (h1.trans h2.symm)
    simp only [Option.getD_some]
    constructor
    · rw [Bool.eq_iff_iff, lookup_addAll, lookup_addAll]
      simp only [hp.mem_iff]
    · rw [index_addAll, index_addAll]
      exact List.Perm.append_left _ ((hp.filter _).map _)
  · intro hc K
    simp only [Option.getD_some]
    rw [index_addAll, index_addAll, fwdPairs_filter, fwdPairs_filter, hcanon o1 h1 hc K,
      hcanon o2 h2 hc K]
    simp [HeaderMap.index, HeaderMap.lookup]

/-- Claim C3, amended.  For every buffer whose header keys and values are valid UTF-8 (its header map well formed, its status a 64-bit `int`), with arbitrary body bytes, `JsonBytes` succeeds and `FromJsonBytes` of its output into a buffer made by `NewMemoryResponseWriter` succeeds and yields the same `Status`, `Headers` and `Data`. -/
theorem json_roundtrip (m : MemoryResponseWriter)
    (hw : HeaderMap.WF (m.Headers.getD []) = true)
    (hint : -(2 : Int) ^ 63 ≤ m.Status ∧ m.Status < (2 : Int) ^ 63)
    (hv : HeaderMap.validStrings (m.Headers.getD []) = true) :
    ∃ bs m1, m.JsonBytes = .ok bs ∧ NewMemoryResponseWriter.FromJsonBytes bs = .ok m1 ∧
      m1.Status = m.Status ∧ m1.Headers = m.Headers ∧ m1.Data = m.Data := by
  exact ⟨marshal m, _, rfl,
    unmarshal_marshal m NewMemoryResponseWriter hw hv hint.1 hint.2 rfl, rfl, rfl, rfl⟩

/-- Claim C3, amended, at a concrete buffer: status 404, two headers, body `hi`. -/
theorem json_roundtrip_witness :
    ∃ bs m1, sampleBuffer.JsonBytes = .ok bs ∧
      NewMemoryResponseWriter.FromJsonBytes bs = .ok m1 ∧
      m1.Status = sampleBuffer.Status ∧ m1.Headers = sampleBuffer.Headers ∧
      m1.Data = sampleBuffer.Data :=
  json_roundtrip sampleBuffer (by decide) (by decide) (by decide)

/-- Claim C3 as stated fails: for a buffer with the header value of the one byte 0xFF, Marshal writes the escape of U+FFFD, so the buffer read back has the three bytes EF BF BD as that header value. -/
theorem invalid_utf8_header_not_restored :
    ¬ ∀ (m : MemoryResponseWriter), HeaderMap.WF (m.Headers.getD []) = true →
        (-(2 : Int) ^ 63 ≤ m.Status ∧ m.Status < (2 : Int) ^ 63) →
        ∃ bs m1, m.JsonBytes = .ok bs ∧ NewMemoryResponseWriter.FromJsonBytes bs = .ok m1 ∧
          m1.Status = m.Status ∧ m1.Headers = m.Headers ∧ m1.Data = m.Data := by
  intro h
  obtain ⟨bs, m1, hj, hf, -, hh, -⟩ := h binaryHeaderBuffer (by decide) (by decide)
  have hbs : bs = marshal binaryHeaderBuffer := by
    simp only [MemoryResponseWriter.JsonBytes, Except.ok.injEq] at hj
    exact hj.symm
  subst hbs
  have hdec : NewMemoryResponseWriter.FromJsonBytes (marshal binaryHeaderBuffer) =
      .ok { buf := [], Data := none, Status := 200,
            Headers := some [(ascii "K", some [[0xEF, 0xBF, 0xBD]])] } := by decide
  rw [hdec] at hf
  simp only [Except.ok.injEq] at hf
  subst hf
  revert hh
  decide

/-- Claim C4, amended.  For every byte string `bs` that `JsonBytes` returns for a buffer whose header keys and values are valid UTF-8 (its header map well formed, its status a 64-bit `int`), `FromJsonBytes` accepts `bs` into a fresh buffer `m` and `JsonBytes(m)` returns exactly `bs`. -/
theorem json_canonical_fixpoint (m0 : MemoryResponseWriter)
    (hw : HeaderMap.WF (m0.Headers.getD []) = true)
    (hint : -(2 : Int) ^ 63 ≤ m0.Status ∧ m0.Status < (2 : Int) ^ 63)
    (hv : HeaderMap.validStrings (m0.Headers.getD []) = true) :
    ∃ bs m, m0.JsonBytes = .ok bs ∧ NewMemoryResponseWriter.FromJsonBytes bs = .ok m ∧
      m.JsonBytes = .ok bs := by
  exact ⟨marshal m0, _, rfl,
    unmarshal_marshal m0 NewMemoryResponseWriter hw hv hint.1 hint.2 rfl, rfl⟩

/-- Claim C4, amended, at the output of `JsonBytes` for a concrete buffer. -/
theorem json_canonical_fixpoint_witness :
    ∃ bs m, sampleBuffer.JsonBytes = .ok bs ∧ NewMemoryResponseWriter.FromJsonBytes bs = .ok m ∧
      m.JsonBytes = .ok bs :=
  json_canonical_fixpoint sampleBuffer (by decide) (by decide) (by decide)

/-- Claim C4 as stated fails: `FromJsonBytes` accepts the two bytes of the empty object into a fresh buffer and leaves it unchanged, and `JsonBytes` of that buffer returns the full object with the fields `data`, `status` and `header`. -/
theorem json_empty_object_not_fixpoint :
    ¬ ∀ (bs : ByteSlice) (m : MemoryResponseWriter),
        NewMemoryResponseWriter.FromJsonBytes bs = .ok m → m.JsonBytes = .ok bs := by
  intro h
  have h1 := h [0x7B, 0x7D] NewMemoryResponseWriter (by decide)
  revert h1
  decide

/-- Claim C7, amended, at a concrete buffer with two headers, replayed onto two fresh sinks in the two orders of its keys. -/
theorem fwd_replay_witness :
    ∃ s1 s2,
      sampleBuffer.Fwd NewMemoryResponseWriter .nothing
        [ascii "X-Straw-Epid", ascii "Content-Type"] = some s1 ∧
      sampleBuffer.Fwd NewMemoryResponseWriter .nothing
        [ascii "Content-Type", ascii "X-Straw-Epid"] = some s2 ∧
      s1.m = sampleBuffer ∧ s2.m = sampleBuffer ∧
      s1.calls = [.headerAdd (ascii "X-Straw-Epid") (ascii "ep-123"),
                  .headerAdd (ascii "Content-Type") (ascii "text/plain"),
                  .writeHeader 404, .write (ascii "hi")] ∧
      s1.w.Status = 404 ∧ s2.w.Status = 404 ∧
      s1.w.Bytes.getD [] = ascii "hi" ∧ s2.w.Bytes.getD [] = ascii "hi" ∧
      ∀ K, ((s1.w.Headers.getD []).index K).getD [] =
            ((sampleBuffer.Headers.getD []).index K).getD [] ∧
          ((s2.w.Headers.getD []).index K).getD [] =
            ((sampleBuffer.Headers.getD []).index K).getD [] := by
  obtain ⟨⟨st, hst, -, hcalls, -, -, -⟩, s1, s2, e1, e2, m1, m2, t1, t2, b1, b2, -, hc⟩ :=
    fwd_replay sampleBuffer NewMemoryResponseWriter []
      [ascii "X-Straw-Epid", ascii "Content-Type"] [ascii "Content-Type", ascii "X-Straw-Epid"]
      (by decide) rfl (List.Perm.swap _ _ _) (List.Perm.refl _)
  have hs : s1 = st := Option.some.inj (e1.symm.trans hst)
  have hc1 : s1.calls = [.headerAdd (ascii "X-Straw-Epid") (ascii "ep-123"),
      .headerAdd (ascii "Content-Type") (ascii "text/plain"),
      .writeHeader 404, .write (ascii "hi")] := by
    rw [hs, hcalls]
    decide
  exact ⟨s1, s2, e1, e2, m1, m2, hc1, t1, t2, b1, b2, hc (by decide)⟩

/-- Claim C7 as stated fails: `m.Fwd(m)`, the replay of a finalized buffer with two headers onto itself, adds every header value to the map it is reading, so afterwards `m.Headers` holds every value twice.  And onto a sink whose header map is nil, as `FromJsonBytes` leaves it after `"header":null`, `Fwd` panics at the first `Add`. -/
theorem fwd_onto_itself_changes_headers :
    (¬ ∀ (m w : MemoryResponseWriter) (s : Sharing) (order : List GoString),
        m.Close = m → HeaderMap.WF (m.Headers.getD []) = true →
        order.Perm ((m.Headers.getD []).map Prod.fst) →
        ∃ st, m.Fwd w s order = some st ∧
          st.m.Status = m.Status ∧ st.m.Headers = m.Headers ∧ st.m.Data = m.Data) ∧
    sampleBuffer.Fwd sampleBuffer .everything [ascii "Content-Type", ascii "X-Straw-Epid"] =
      some { m := replayedOntoItself, w := replayedOntoItself,
             calls := [.headerAdd (ascii "Content-Type") (ascii "text/plain"),
                       .headerAdd (ascii "X-Straw-Epid") (ascii "ep-123"),
                       .writeHeader 404, .write (ascii "hi")] } ∧
    NewMemoryResponseWriter.FromJsonBytes ([0x7B] ++ ascii "\"header\":null" ++ [0x7D]) =
      .ok nilHeaderSink ∧
    sampleBuffer.Fwd nilHeaderSink .nothing [ascii "Content-Type", ascii "X-Straw-Epid"] = none := by
  have hf : sampleBuffer.Fwd sampleBuffer .everything [ascii "Content-Type", ascii "X-Straw-Epid"] =
      some { m := replayedOntoItself, w := replayedOntoItself,
             calls := [.headerAdd (ascii "Content-Type") (ascii "text/plain"),
                       .headerAdd (ascii "X-Straw-Epid") (ascii "ep-123"),
                       .writeHeader 404, .write (ascii "hi")] } := by decide
  refine ⟨?_, hf, by decide, by decide⟩
  intro h
  obtain ⟨st, hst, -, hh, -⟩ := h sampleBuffer sampleBuffer .everything
    [ascii "Content-Type", ascii "X-Straw-Epid"] (by decide) (by decide) (List.Perm.refl _)
  rw [hf] at hst
  cases hst
  revert hh
  decide

end Straw
